import Mathlib

/-!
Verification of the wikitext-to-document parser of the aikipedia repository.

The repository ships two parser variants inside `src/components/wiki/WikiMarkdown.tsx`:

* variant 1 (lines 1-765): `extractMathBlocks` (math extraction with fallback
  suppression and placeholder substitution), a block loop `parseContent` with
  headings, lists, horizontal rules and display-math-splitting paragraphs, and
  the quote-delimiter inline tokenizer `tokenizeInline`;
* variant 2 (lines 766-1797): `cleanWikiText`/`removeBalancedBlocks` (noise
  stripping with two delimiter stacks), a block loop with tables, code fences,
  block math, indented code, blockquotes and a regex-driven inline scanner
  `processInlineFormatting`.

Everything below is a shallow embedding of those functions over `List Char`
(the code manipulates JavaScript strings; inputs of interest are ASCII).
Regex use in the source is translated into explicit scanners with the exact
backtracking behaviour of the original patterns.  Loops whose cursor can jump
by more than one position are embedded with explicit fuel so that every
definition is executable by kernel reduction; entry points supply sufficient
fuel, and the termination claims are stated as fuel-stabilisation facts.
-/

/-! ## String helpers -/

/-- Characters of a JavaScript string. -/
abbrev Str := List Char

/-- The apostrophe character (wikitext emphasis delimiter). -/
def qc : Char := Char.ofNat 39

/-- The backtick character (inline-code delimiter). -/
def bqc : Char := Char.ofNat 96

/-- ASCII fragment of the JavaScript whitespace class used by the source. -/
def isWsC (c : Char) : Bool :=
  c = ' ' || c = '\t' || c = '\n' || c = '\r' || c = '\x0b' || c = '\x0c'

/-- Left trim, as in `String.prototype.trimStart`. -/
def trimL (s : Str) : Str := s.dropWhile isWsC

/-- Right trim, as in `String.prototype.trimEnd`. -/
def trimR (s : Str) : Str := (s.reverse.dropWhile isWsC).reverse

/-- Both-sided trim, as in `String.prototype.trim`. -/
def jsTrim (s : Str) : Str := trimR (trimL s)

/-- Lower-casing, as in `String.prototype.toLowerCase` (ASCII fragment). -/
def lowerS (s : Str) : Str := s.map Char.toLower

/-- Prefix test: `isPre p s` holds when `p` begins `s`. -/
def isPre : Str → Str → Bool
  | [], _ => true
  | _ :: _, [] => false
  | p :: ps, c :: cs => p = c && isPre ps cs

/-- Suffix test, as in `String.prototype.endsWith`. -/
def isSuf (p s : Str) : Bool := isPre p.reverse s.reverse

/-- First index at or after which `pat` occurs in the scanned suffix. -/
def findSubAux (pat : Str) : Str → Nat → Option Nat
  | [], i => if isPre pat [] then some i else none
  | c :: cs, i => if isPre pat (c :: cs) then some i else findSubAux pat cs (i + 1)

/-- Index of the first occurrence of `pat` in `s`, as in `String.prototype.indexOf`. -/
def findSub (pat s : Str) : Option Nat := findSubAux pat s 0

/-- Occurrence test, as in `String.prototype.includes`. -/
def hasSub (pat s : Str) : Bool := (findSub pat s).isSome

/-- Substring extraction `slice(a, b)` for `0 ≤ a ≤ b` (the only form used). -/
def sliceJS (s : Str) (a b : Nat) : Str := (s.drop a).take (b - a)

/-- Number of occurrences of a pattern, counted at every position (used only to
state theorems about how often a placeholder occurs in a text). -/
def countSubAt : Str → Str → Nat
  | _, [] => 0
  | pat, s@(_ :: cs) => (if isPre pat s then 1 else 0) + countSubAt pat cs

/-- Split on a single separator character, as `String.prototype.split("\n")`. -/
def splitOnCAux (sep : Char) : Str → Str → List Str
  | [], acc => [acc.reverse]
  | c :: cs, acc =>
    if c = sep then acc.reverse :: splitOnCAux sep cs [] else splitOnCAux sep cs (c :: acc)

/-- Split a text into lines on a single character. -/
def splitOnC (sep : Char) (s : Str) : List Str := splitOnCAux sep s []

/-- Decimal digit character for a value below ten. -/
def decDig (d : Nat) : Char := Char.ofNat (48 + d)

/-- Fuelled decimal printer (most significant digit first). -/
def natDecF : Nat → Nat → Str
  | 0, _ => []
  | f + 1, n => if n < 10 then [decDig n] else natDecF f (n / 10) ++ [decDig (n % 10)]

/-- Decimal spelling of a natural number, as JavaScript template interpolation
of an integer produces. -/
def natDec (n : Nat) : Str := natDecF (n + 1) n

/-- Horner evaluation of a digit string, used to invert `natDec`. -/
def valDec (s : Str) : Nat := s.foldl (fun a c => a * 10 + (c.toNat - 48)) 0

/-! ## Variant 1: inline tokenizer (`tokenizeInline`, WikiMarkdown.tsx lines 615-705) -/

/-- Inline token produced by the variant-1 tokenizer (`type Token` of the source). -/
inductive Tok where
  | text (s : Str)
  | bold (s : Str)
  | italic (s : Str)
  | bolditalic (s : Str)
  | link (url : Str) (label : Str)
  | wikilink (page : Str) (label : Str)
  | code (s : Str)
  | math (s : Str) (display : Bool)
deriving DecidableEq

/-- Math side table built by `extractMathBlocks`: placeholder key,
LaTeX content, display flag (the source's `MathMap`). -/
abbrev MathTab := List (Str × (Str × Bool))

/-- Lookup in the math table (`Map.prototype.get`; keys are pairwise distinct). -/
def lookupTab : MathTab → Str → Option (Str × Bool)
  | [], _ => none
  | (k, v) :: rest, key => if k = key then some v else lookupTab rest key

/-- Length of a match of the anchored placeholder pattern at the head of `s`
(the source regex is a literal prefix, one or more digits, then two
underscores; the greedy digit run cannot backtrack into the underscores). -/
def phAt (s : Str) : Option Nat :=
  if isPre ("__MATH_".toList) s then
    let rest := s.drop 7
    let ds := rest.takeWhile Char.isDigit
    if ds = [] then none
    else if isPre ("__".toList) (rest.drop ds.length) then some (7 + ds.length + 2)
    else none
  else none

/-- First index at which the placeholder pattern matches (the source's
`String.prototype.search` of the unanchored pattern). -/
def searchPhAux : Str → Nat → Option Nat
  | [], _ => none
  | s@(_ :: rest), i => if (phAt s).isSome then some i else searchPhAux rest (i + 1)

/-- Index of the first placeholder match in `s`, if any. -/
def searchPh (s : Str) : Option Nat := searchPhAux s 0

/-- Lazy closing-delimiter search for the quote patterns: smallest non-empty
content length `j` such that the delimiter begins right after it and the
content contains no newline (the source patterns use `(.+?)`). -/
def findCloseAux (delim : Str) : Str → Nat → Option Nat
  | [], _ => none
  | c :: cs, j =>
    if c = '\n' then none
    else if isPre delim cs then some (j + 1)
    else findCloseAux delim cs (j + 1)

/-- Smallest viable lazy content length before `delim`, scanning `rest`. -/
def findClose (delim rest : Str) : Option Nat := findCloseAux delim rest 0

/-- Five, three and two apostrophes. -/
def q5 : Str := List.replicate 5 qc

/-- Three apostrophes. -/
def q3 : Str := List.replicate 3 qc

/-- Two apostrophes. -/
def q2 : Str := List.replicate 2 qc

/-- Wiki-link match at the head of `s` (source pattern
`^[[([^]|]+)(?:|([^]]+))?]]` with the square brackets escaped): returns the
token and the matched length. -/
def wikiLinkAt (s : Str) : Option (Tok × Nat) :=
  if isPre ("[[".toList) s then
    let rest := s.drop 2
    let r1 := rest.takeWhile (fun c => c ≠ ']' && c ≠ '|')
    if r1 = [] then none
    else
      let rest2 := rest.drop r1.length
      if isPre ("]]".toList) rest2 then
        some (Tok.wikilink (jsTrim r1) (jsTrim r1), 2 + r1.length + 2)
      else if isPre ("|".toList) rest2 then
        let r2 := (rest2.drop 1).takeWhile (fun c => c ≠ ']')
        if r2 = [] then none
        else if isPre ("]]".toList) (rest2.drop (1 + r2.length)) then
          let lab := if jsTrim r2 = [] then jsTrim r1 else jsTrim r2
          some (Tok.wikilink (jsTrim r1) lab, 2 + r1.length + 1 + r2.length + 2)
        else none
      else none
  else none

/-- External-link match at the head of `s` (source pattern
`^[(https?://[^s]]+)(?:s+([^]]+))?]` with character classes spelled out),
including the backtracking that can shorten the whitespace run when the
optional label would otherwise be empty. -/
def extLinkAt (s : Str) : Option (Tok × Nat) :=
  if isPre ("[".toList) s then
    let rest := s.drop 1
    let scheme : Option Str :=
      if isPre ("https://".toList) rest then some ("https://".toList)
      else if isPre ("http://".toList) rest then some ("http://".toList)
      else none
    match scheme with
    | none => none
    | some sch =>
      let afterSch := rest.drop sch.length
      let run := afterSch.takeWhile (fun c => !isWsC c && c ≠ ']')
      if run = [] then none
      else
        let url := sch ++ run
        let restU := afterSch.drop run.length
        if isPre ("]".toList) restU then
          some (Tok.link url url, 1 + url.length + 1)
        else
          match restU with
          | [] => none
          | c :: _ =>
            if isWsC c then
              let seg := restU.takeWhile (fun c => c ≠ ']')
              if isPre ("]".toList) (restU.drop seg.length) then
                let w := seg.takeWhile isWsC
                let lab := seg.drop w.length
                if lab ≠ [] then
                  some (Tok.link url lab, 1 + url.length + seg.length + 1)
                else if 2 ≤ w.length then
                  some (Tok.link url (seg.drop (seg.length - 1)),
                        1 + url.length + seg.length + 1)
                else none
              else none
            else none
  else none

/-- Inline-code match at the head of `s` (backtick, non-backtick run, backtick). -/
def codeAt (s : Str) : Option (Tok × Nat) :=
  if isPre [bqc] s then
    let run := (s.drop 1).takeWhile (fun c => c ≠ bqc)
    if run = [] then none
    else if isPre [bqc] ((s.drop 1).drop run.length) then
      some (Tok.code run, 1 + run.length + 1)
    else none
  else none

/-- Quote-delimited match: `emph delim mk s` recognises `delim`, a lazy
non-empty newline-free content, then `delim` again. -/
def emphAt (delim : Str) (mk : Str → Tok) (s : Str) : Option (Tok × Nat) :=
  if isPre delim s then
    match findClose delim (s.drop delim.length) with
    | some j => some (mk ((s.drop delim.length).take j), delim.length + j + delim.length)
    | none => none
  else none

/-- Maximal plain-text run: characters that cannot begin a recognised
construct (source class excludes apostrophe, backtick, opening bracket and
underscore). -/
def plainRun (s : Str) : Str :=
  s.takeWhile (fun c => c ≠ qc && c ≠ bqc && c ≠ '[' && c ≠ '_')

/-- The part of the variant-1 tokenizer loop body after the placeholder
branches: quote constructs, links, code, plain run, single-character fallback. -/
def stepRestV1 (s : Str) : List Tok × Nat :=
  match emphAt q5 Tok.bolditalic s with
  | some (t, k) => ([t], k)
  | none =>
  match emphAt q3 Tok.bold s with
  | some (t, k) => ([t], k)
  | none =>
  match emphAt q2 Tok.italic s with
  | some (t, k) => ([t], k)
  | none =>
  match wikiLinkAt s with
  | some (t, k) => ([t], k)
  | none =>
  match extLinkAt s with
  | some (t, k) => ([t], k)
  | none =>
  match codeAt s with
  | some (t, k) => ([t], k)
  | none =>
  match plainRun s with
  | [] => ([Tok.text (s.take 1)], 1)
  | run => ([Tok.text run], run.length)

/-- One iteration of the variant-1 tokenizer loop: emitted tokens and number
of consumed characters. -/
def stepV1 (mb : MathTab) (s : Str) : List Tok × Nat :=
  match phAt s with
  | some k =>
    (match lookupTab mb (s.take k) with
     | some (content, display) => if display then [] else [Tok.math content false]
     | none => [], k)
  | none =>
    match searchPh s with
    | some i => if 0 < i then ([Tok.text (s.take i)], i) else stepRestV1 s
    | none => stepRestV1 s

/-- Fuelled variant-1 tokenizer loop. -/
def tokGo (mb : MathTab) : Nat → Str → List Tok
  | 0, _ => []
  | _, [] => []
  | f + 1, s =>
    let r := stepV1 mb s
    r.1 ++ tokGo mb f (s.drop r.2)

/-- The variant-1 inline tokenizer `tokenizeInline`. -/
def tokenizeInline (mb : MathTab) (s : Str) : List Tok := tokGo mb (s.length + 1) s

/-! ## Variant 1: math extraction (`extractMathBlocks`, WikiMarkdown.tsx lines 157-382) -/

/-- Case-insensitive first-occurrence search (the source regexes carry the
`i` flag); positions in the lower-cased copy coincide with the original. -/
def findSubCI (pat s : Str) : Option Nat := findSub (lowerS pat) (lowerS s)

/-- JavaScript `String.prototype.substring`, which swaps its arguments when
`a > b`. -/
def jsSubstring (s : Str) (a b : Nat) : Str := sliceJS s (min a b) (max a b)

/-- The literal marker beginning a display-style wrapper. -/
def dsMark : Str := "\x7b\\displaystyle".toList

/-- The literal marker beginning a text-style wrapper. -/
def tsMark : Str := "\x7b\\textstyle".toList

/-- Placeholder key for extraction index `n` (source template literal
interpolating the running block index). -/
def phKey (n : Nat) : Str := "__MATH_".toList ++ natDec n ++ "__".toList

/-- Balanced-brace scan of the source (depth counter, break when a closing
brace brings the depth to zero); returns the offset of that closing brace. -/
def braceClose : Str → Int → Nat → Option Nat
  | [], _, _ => none
  | c :: cs, depth, j =>
    if c = '\x7b' then braceClose cs (depth + 1) (j + 1)
    else if c = '\x7d' then
      if depth - 1 = 0 then some j else braceClose cs (depth - 1) (j + 1)
    else braceClose cs depth (j + 1)

/-- Match of the `<img ...>` pattern: first case-insensitive `<img`, a run of
non-`>` characters, then `>`.  When the first candidate has no closing `>`
no later candidate can have one either, so the scan is complete. -/
def findImgMatch (s : Str) : Option (Nat × Nat) :=
  match findSubCI ("<img".toList) s with
  | none => none
  | some p =>
    let after := s.drop (p + 4)
    let attrs := after.takeWhile (fun c => c ≠ '>')
    if isPre (">".toList) (after.drop attrs.length) then some (p, 4 + attrs.length + 1)
    else none

/-- Fuelled global deletion of `<img ...>` matches (source line 171). -/
def removeImgF : Nat → Str → Str
  | 0, s => s
  | f + 1, s =>
    match findImgMatch s with
    | none => s
    | some (p, len) => s.take p ++ removeImgF f (s.drop (p + len))

/-- Deletion of every `<img ...>` match, scanning left to right. -/
def removeImg (s : Str) : Str := removeImgF (s.length + 1) s

/-- Positions of all style markers (source regex collecting every
occurrence of a display- or text-style opener; matches cannot overlap). -/
def marksOf : Str → Nat → List Nat
  | [], _ => []
  | s@(_ :: rest), i =>
    if isPre dsMark s || isPre tsMark s then i :: marksOf rest (i + 1)
    else marksOf rest (i + 1)

/-- Punctuation class of the sentence-boundary regex. -/
def isPunct (c : Char) : Bool := c = '.' || c = '!' || c = '?'

/-- Upper-case ASCII letter. -/
def isUpperC (c : Char) : Bool := 'A' ≤ c && c ≤ 'Z'

/-- Match length at the head of `s` for the sentence-boundary alternation:
punctuation + whitespace + capital, punctuation + trailing whitespace at the
end, or a double newline, tried in that order. -/
def sentAlt : Str → Option Nat
  | [] => none
  | c :: rest =>
    if isPunct c then
      let w := rest.takeWhile isWsC
      if 1 ≤ w.length then
        match rest.drop w.length with
        | d :: _ => if isUpperC d then some (1 + w.length + 1) else none
        | [] => some (1 + w.length)
      else
        match rest with
        | [] => some 1
        | _ => none
    else if c = '\n' then
      match rest with
      | d :: _ => if d = '\n' then some 2 else none
      | [] => none
    else none

/-- Fuelled global collection of sentence-boundary match strings. -/
def sentMatchesF : Nat → Str → List Str
  | 0, _ => []
  | _, [] => []
  | f + 1, s@(_ :: rest) =>
    match sentAlt s with
    | some l => s.take l :: sentMatchesF f (s.drop l)
    | none => sentMatchesF f rest

/-- All sentence-boundary match strings of `s`, in order. -/
def sentMatches (s : Str) : List Str := sentMatchesF (s.length + 1) s

/-- Last occurrence of `pat` in the scanned suffix
(`String.prototype.lastIndexOf`). -/
def lastIdxAux (pat : Str) : Str → Nat → Option Nat → Option Nat
  | [], _, best => best
  | s@(_ :: rest), i, best =>
    lastIdxAux pat rest (i + 1) (if isPre pat s then some i else best)

/-- Index of the last occurrence of `pat` in `s`. -/
def lastIdxSub (pat s : Str) : Option Nat := lastIdxAux pat s 0 none

/-- JavaScript word character (`\w`). -/
def isWordC (c : Char) : Bool := c.isAlpha || c.isDigit || c = '_'

/-- State machine counting maximal word-character runs that are purely
alphabetic and at least four long (matches of the source's real-word regex
with boundary assertions). -/
def rwGo : Str → Nat → Bool → Nat → Nat
  | [], len, allA, acc => acc + (if 4 ≤ len && allA then 1 else 0)
  | c :: cs, len, allA, acc =>
    if isWordC c then rwGo cs (len + 1) (allA && c.isAlpha) acc
    else rwGo cs 0 true (acc + (if 4 ≤ len && allA then 1 else 0))

/-- Number of real words (at least four letters) of a text. -/
def countRealWords (s : Str) : Nat := rwGo s 0 true 0

/-- One iteration of the fallback-suppression loop (source lines 185-236):
`m` is the marker position, `prev` the position of the preceding marker. -/
def fbStep (processed : Str) (m : Nat) (prev : Option Nat) : Str :=
  let lb0 := m - 300
  let lb :=
    match prev with
    | none => lb0
    | some pm =>
      let pe :=
        match braceClose (processed.drop pm) 0 0 with
        | some off => pm + off + 1
        | none => pm
      max lb0 pe
  let textBefore := jsSubstring processed lb m
  let ms := sentMatches textBefore
  let fbStart :=
    match ms.getLast? with
    | some lastM => lb + (lastIdxSub lastM textBefore).getD 0 + lastM.length
    | none => lb
  let between := jsSubstring processed fbStart m
  if countRealWords between < 3 then
    processed.take fbStart ++ ('\n' :: '\n' :: []) ++ processed.drop m
  else processed

/-- The whole fallback-suppression pass: marker positions are collected once,
then processed from the last to the first. -/
def fbPassAll (p : Str) : Str :=
  let ms := marksOf p 0
  let pairs := ms.zip (none :: ms.map some)
  pairs.reverse.foldl (fun pr mp => fbStep pr mp.1 mp.2) p

/-- Fuelled deletion of a whitespace run following every `trigger` character
(one direction of `cleanLatex`). -/
def delWsAfterF (trigger : Char) : Nat → Str → Str
  | 0, s => s
  | _, [] => []
  | f + 1, c :: cs =>
    if c = trigger then c :: delWsAfterF trigger f (cs.dropWhile isWsC)
    else c :: delWsAfterF trigger f cs

/-- LaTeX normalisation of the source: drop spaces just inside braces. -/
def cleanLatex (s : Str) : Str :=
  let s1 := delWsAfterF '\x7b' (s.length + 1) s
  (delWsAfterF '\x7d' (s1.length + 1) s1.reverse).reverse

/-- Unwrap a display/text-style shell from a math tag body
(`extractStyleFromContent` of the source). -/
def extractStyle (content : Str) : Str × Bool :=
  let t := jsTrim content
  let tryMark : Str → Nat → Option Str := fun mark skipLen =>
    if isPre mark t then
      match braceClose t 0 0 with
      | some e =>
        if 0 < e then
          let start0 := skipLen + 1
          let ws := ((t.drop start0).take (e - start0)).takeWhile isWsC
          some (jsTrim (sliceJS t (start0 + ws.length) e))
        else none
      | none => none
    else none
  match tryMark dsMark 13 with
  | some l => (l, true)
  | none =>
    match tryMark tsMark 10 with
    | some l => (l, false)
    | none => (t, false)

/-- Attribute pattern `display="block"` (double-quoted form). -/
def dqBlock : Str := "display=\"block\"".toList

/-- Attribute pattern with single quotes. -/
def sqBlock : Str := "display=".toList ++ [qc] ++ "block".toList ++ [qc]

/-- Match of the math-tag pattern: case-insensitive `<math`, non-`>`
attributes, `>`, lazy body, case-insensitive `</math>`.  Returns start,
total length, attributes and body.  When the first candidate lacks its `>`
or its closer, no later candidate can match. -/
def findMathTag (s : Str) : Option (Nat × Nat × Str × Str) :=
  match findSubCI ("<math".toList) s with
  | none => none
  | some p =>
    let after := s.drop (p + 5)
    let attrs := after.takeWhile (fun c => c ≠ '>')
    let afterAttrs := after.drop attrs.length
    if isPre (">".toList) afterAttrs then
      let content0 := afterAttrs.drop 1
      match findSubCI ("</math>".toList) content0 with
      | none => none
      | some h => some (p, 5 + attrs.length + 1 + h + 7, attrs, content0.take h)
    else none

/-- Fuelled global replacement of `<math ...>...</math>` tags by fresh
placeholders (source lines 294-316); returns the new text, the table
entries in insertion order and the next free index. -/
def mathTagPassF : Nat → Str → Nat → Str × MathTab × Nat
  | 0, s, idx => (s, [], idx)
  | f + 1, s, idx =>
    match findMathTag s with
    | none => (s, [], idx)
    | some (p, len, attrs, content) =>
      let hasDB := hasSub dqBlock attrs || hasSub sqBlock attrs
      let sty := extractStyle content
      let isDisplay := hasDB || sty.2
      let ph := phKey idx
      let r := mathTagPassF f (s.drop (p + len)) (idx + 1)
      (s.take p ++ ph ++ r.1, (ph, (cleanLatex sty.1, isDisplay)) :: r.2.1, r.2.2)

/-- Fuelled second scan replacing bare style wrappers by placeholders
(source lines 318-379). -/
def barePassF : Nat → Str → Nat → Str × MathTab × Nat
  | 0, s, idx => (s, [], idx)
  | f + 1, s, idx =>
    let choice : Option (Nat × Bool × Nat) :=
      match findSub dsMark s, findSub tsMark s with
      | some d, some t => if d < t then some (d, true, 14) else some (t, false, 11)
      | some d, none => some (d, true, 14)
      | none, some t => some (t, false, 11)
      | none, none => none
    match choice with
    | none => (s, [], idx)
    | some (m, disp, skip) =>
      match braceClose (s.drop m) 0 0 with
      | none =>
        let r := barePassF f (s.drop (m + 1)) idx
        (s.take (m + 1) ++ r.1, r.2.1, r.2.2)
      | some off =>
        let e := m + off
        let inner := sliceJS s (m + skip) e
        let ws := inner.takeWhile isWsC
        let content := cleanLatex (jsTrim (inner.drop ws.length))
        let ph := phKey idx
        let r := barePassF f (s.drop (e + 1)) (idx + 1)
        (s.take m ++ ph ++ r.1, (ph, (content, disp)) :: r.2.1, r.2.2)

/-- The math extractor `extractMathBlocks`: image-tag removal, fallback
suppression, math-tag pass, bare-style pass. -/
def extractMathBlocks (text : Str) : Str × MathTab :=
  let p0 := removeImg text
  let p1 := fbPassAll p0
  let r1 := mathTagPassF (p1.length + 1) p1 0
  let r2 := barePassF (r1.1.length + 1) r1.1 r1.2.2
  (r2.1, r1.2.1 ++ r2.2.1)

/-! ## Variant 1: block parser (`parseContent` etc., WikiMarkdown.tsx lines 90-603) -/

/-- Block node of the variant-1 parser; `heading` carries the rendered tag
level (the source maps computed levels 2-5 to matching tags and everything
else to `h6`). -/
inductive Blk where
  | heading (tag : Nat) (toks : List Tok)
  | listB (ordered : Bool) (items : List (List Tok))
  | hr
  | para (toks : List Tok)
  | displayMath (latex : Str)
deriving DecidableEq

/-- Rendered heading tag for a computed level. -/
def levelTag (lvl : Nat) : Nat :=
  if lvl = 2 then 2 else if lvl = 3 then 3 else if lvl = 4 then 4
  else if lvl = 5 then 5 else 6

/-- Variant-1 `parseHeading` (source lines 386-428): leading and trailing
`=` runs of the trimmed line, level is their minimum, empty title yields no
node. -/
def parseHeadingV1 (mb : MathTab) (line : Str) : Option Blk :=
  let t := jsTrim line
  let sEq := t.takeWhile (fun c => c = '=')
  let eEq := t.reverse.takeWhile (fun c => c = '=')
  if sEq = [] || eEq = [] || sEq.length < 2 then none
  else
    let text := jsTrim (sliceJS t sEq.length (t.length - eEq.length))
    if text = [] then none
    else some (Blk.heading (levelTag (min sEq.length eEq.length)) (tokenizeInline mb text))

/-- Item pattern of variant-1 `parseList`: marker, at least one whitespace
character, then the greedy remainder. -/
def listItemV1 (ord : Bool) (t : Str) : Option Str :=
  match t with
  | [] => none
  | c :: rest =>
    if (if ord then c = '#' else c = '*') then
      let w := rest.takeWhile isWsC
      if 1 ≤ w.length then some (rest.drop w.length) else none
    else none

/-- Consecutive matching items of variant-1 `parseList` with their count. -/
def listItemsV1 (ord : Bool) : List Str → List Str × Nat
  | [] => ([], 0)
  | l :: rest =>
    let t := jsTrim l
    if t = [] then ([], 0)
    else
      match listItemV1 ord t with
      | none => ([], 0)
      | some item =>
        let r := listItemsV1 ord rest
        (item :: r.1, r.2 + 1)

/-- Variant-1 `parseList` (source lines 430-476): node and consumed count;
an empty item list consumes one line and yields nothing. -/
def parseListV1 (mb : MathTab) (lines : List Str) (ord : Bool) : Option Blk × Nat :=
  let r := listItemsV1 ord lines
  if r.1 = [] then (none, 1)
  else (some (Blk.listB ord (r.1.map (tokenizeInline mb))), r.2)

/-- Test for `^[*]` on a trimmed line. -/
def starStart (t : Str) : Bool :=
  match t with
  | c :: _ => c = '*'
  | [] => false

/-- Test for the unordered-list gate `^[*]\s`. -/
def ulStart (t : Str) : Bool :=
  match t with
  | c :: d :: _ => c = '*' && isWsC d
  | _ => false

/-- Test for the ordered-list gate `^#\s`. -/
def olStart (t : Str) : Bool :=
  match t with
  | c :: d :: _ => c = '#' && isWsC d
  | _ => false

/-- Test for the horizontal-rule line `^-{4,}$`. -/
def hrLine (t : Str) : Bool := 4 ≤ t.length && t.all (fun c => c = '-')

/-- Paragraph line collection of variant-1 `parseParagraph` (source lines
501-520): trimmed lines are gathered until a blank, heading-like, list-like
or rule-like line, which is not consumed. -/
def paraCollectV1 : List Str → List Str × Nat
  | [] => ([], 0)
  | l :: rest =>
    let t := jsTrim l
    if t = [] || isPre ("==".toList) t || starStart t || olStart t || hrLine t then ([], 0)
    else
      let r := paraCollectV1 rest
      (t :: r.1, r.2 + 1)

/-- Character class of the assignment-tail regex of `takeLhsTailForMath`. -/
def lhsChar (c : Char) : Bool :=
  c.isAlpha || c.isDigit || c = '\\' || c = '(' || c = ')' || c = '[' || c = ']' ||
  c = '\x7b' || c = '\x7d' || c = '+' || c = '-' || c = '*' || c = '/' || c = '^' ||
  c = '_' || isWsC c

/-- Does `t` consist of optional whitespace, one relation operator of the
source pattern, then optional whitespace to the end? -/
def tailOp (t : Str) : Bool :=
  let r := t.dropWhile isWsC
  let checkOp : Str → Option Nat := fun r =>
    if isPre ("=".toList) r then some 1
    else if isPre ("≡".toList) r then some 1
    else if isPre ("≈".toList) r then some 1
    else if isPre (":=".toList) r then some 2
    else if isPre ("≤".toList) r then some 1
    else if isPre ("≥".toList) r then some 1
    else none
  match checkOp r with
  | some k => (r.drop k).all isWsC
  | none => false

/-- Lazy split of the tail regex at a fixed start: smallest non-empty
all-class content after which the operator-and-whitespace tail reaches the
end. -/
def lhsInner : Str → Bool
  | [] => false
  | c :: cs => lhsChar c && (tailOp cs || lhsInner cs)

/-- Leftmost start position of a tail-regex match in the scanned suffix. -/
def lhsFindAux : Str → Nat → Option Nat
  | [], _ => none
  | u@(_ :: rest), p => if lhsInner u then some p else lhsFindAux rest (p + 1)

/-- The source's `takeLhsTailForMath` (lines 479-493): the text before the
matched tail, and the whitespace-stripped tail when a match exists. -/
def takeLhsTailForMath (text : Str) : Str × Option Str :=
  let tr := trimR text
  match lhsFindAux tr 0 with
  | none => (text, none)
  | some p => (tr.take p, some ((tr.drop p).filter (fun c => !isWsC c)))

/-- All placeholder-pattern matches of a text with positions and lengths
(global regex, continuing after each match). -/
def phMatchesF : Nat → Str → Nat → List (Nat × Nat)
  | 0, _, _ => []
  | _, [], _ => []
  | f + 1, s@(_ :: rest), i =>
    match phAt s with
    | some k => (i, k) :: phMatchesF f (s.drop k) (i + k)
    | none => phMatchesF f rest (i + 1)

/-- Paragraph-part construction of variant-1 `parseParagraph` (source lines
545-589): text before each display placeholder becomes a paragraph (after
the assignment tail is carved off and merged into the math), the placeholder
becomes a display-math node, and the final tail becomes a last paragraph. -/
def paraBuild (mb : MathTab) (fullText : Str) : List (Nat × Nat × Str) → Nat → List Blk
  | [], lastIdx =>
    let tail := fullText.drop lastIdx
    if jsTrim tail ≠ [] then [Blk.para (tokenizeInline mb tail)] else []
  | (idx, len, latex) :: rest, lastIdx =>
    let beforeRaw := sliceJS fullText lastIdx idx
    let c := takeLhsTailForMath beforeRaw
    let mathContent :=
      match c.2 with
      | some lhs => lhs ++ latex
      | none => latex
    (if jsTrim c.1 ≠ [] then [Blk.para (tokenizeInline mb c.1)] else []) ++
      (Blk.displayMath mathContent :: paraBuild mb fullText rest (idx + len))

/-- Variant-1 `parseParagraph`: collected lines joined by spaces, display
placeholders split out, consumed count. -/
def paraStepV1 (mb : MathTab) (lines : List Str) : List Blk × Nat :=
  let r := paraCollectV1 lines
  if r.1 = [] then ([], 1)
  else
    let fullText := List.intercalate [' '] r.1
    let phs := phMatchesF (fullText.length + 1) fullText 0
    let dms := phs.filterMap (fun pm =>
      match lookupTab mb (sliceJS fullText pm.1 (pm.1 + pm.2)) with
      | some (c, true) => some (pm.1, pm.2, c)
      | _ => none)
    let parts := paraBuild mb fullText dms 0
    if parts = [] then ([Blk.para (tokenizeInline mb fullText)], r.2) else (parts, r.2)

/-- One iteration of the variant-1 block loop (source lines 97-145). -/
def stepBlkV1 (mb : MathTab) (lines : List Str) : List Blk × Nat :=
  match lines with
  | [] => ([], 1)
  | l :: _ =>
    let t := jsTrim l
    if t = [] then ([], 1)
    else if isPre ("==".toList) t && isSuf ("==".toList) t then
      match parseHeadingV1 mb l with
      | some b => ([b], 1)
      | none => ([], 1)
    else if ulStart t then
      let r := parseListV1 mb lines false
      (r.1.toList, r.2)
    else if olStart t then
      let r := parseListV1 mb lines true
      (r.1.toList, r.2)
    else if hrLine t then ([Blk.hr], 1)
    else paraStepV1 mb lines

/-- Fuelled variant-1 block loop. -/
def blkLoopV1 (mb : MathTab) : Nat → List Str → List Blk
  | 0, _ => []
  | _, [] => []
  | f + 1, lines =>
    let r := stepBlkV1 mb lines
    r.1 ++ blkLoopV1 mb f (lines.drop r.2)

/-- The variant-1 parse entry point `parseContent` (math extraction, then
the line loop; the `enableMath` flag only affects presentation). -/
def parseContentV1 (text : Str) : List Blk :=
  let e := extractMathBlocks text
  let lines := splitOnC '\n' e.1
  blkLoopV1 e.2 (lines.length + 1) lines

/-! ## Variant 2: noise stripper (`cleanWikiText`/`removeBalancedBlocks`,
WikiMarkdown.tsx lines 861-1021) -/

/-- Fuelled global removal of comment spans (`<!--` lazily to `-->`). -/
def remCommentsF : Nat → Str → Str
  | 0, s => s
  | f + 1, s =>
    match findSub ("<!--".toList) s with
    | none => s
    | some p =>
      match findSub ("-->".toList) (s.drop (p + 4)) with
      | none => s
      | some h => s.take p ++ remCommentsF f (s.drop (p + 4 + h + 3))

/-- First full match of the paired reference-tag pattern (`<ref`, word
boundary, non-`>` attributes, `>`, lazy body, `</ref>`): position and
length.  A candidate that fails is retried from the next position, as the
regex engine does. -/
def findRefPairAux : Nat → Str → Nat → Option (Nat × Nat)
  | 0, _, _ => none
  | f + 1, s, i =>
    match findSub ("<ref".toList) s with
    | none => none
    | some p =>
      let after := s.drop (p + 4)
      let bOk :=
        match after with
        | [] => false
        | c :: _ => !isWordC c
      let attrs := after.takeWhile (fun c => c ≠ '>')
      let ok :=
        if bOk && isPre (">".toList) (after.drop attrs.length) then
          findSub ("</ref>".toList) (after.drop (attrs.length + 1))
        else none
      match ok with
      | some h => some (i + p, 4 + attrs.length + 1 + h + 6)
      | none => findRefPairAux f (s.drop (p + 1)) (i + p + 1)

/-- First paired reference-tag match of `s`. -/
def findRefPair (s : Str) : Option (Nat × Nat) := findRefPairAux (s.length + 1) s 0

/-- Fuelled global removal of paired reference tags. -/
def remRefPairF : Nat → Str → Str
  | 0, s => s
  | f + 1, s =>
    match findRefPair s with
    | none => s
    | some (p, len) => s.take p ++ remRefPairF f (s.drop (p + len))

/-- First match of the self-closing reference-tag pattern
(`<ref`, word boundary, non-`>` attributes, `/>`). -/
def findRefSelfAux : Nat → Str → Nat → Option (Nat × Nat)
  | 0, _, _ => none
  | f + 1, s, i =>
    match findSub ("<ref".toList) s with
    | none => none
    | some p =>
      let after := s.drop (p + 4)
      let bOk :=
        match after with
        | [] => false
        | c :: _ => !isWordC c
      let run := after.takeWhile (fun c => c ≠ '>')
      if bOk && run.getLast? = some '/' && isPre (">".toList) (after.drop run.length) then
        some (i + p, 4 + run.length + 1)
      else findRefSelfAux f (s.drop (p + 1)) (i + p + 1)

/-- First self-closing reference-tag match of `s`. -/
def findRefSelf (s : Str) : Option (Nat × Nat) := findRefSelfAux (s.length + 1) s 0

/-- Fuelled global removal of self-closing reference tags. -/
def remRefSelfF : Nat → Str → Str
  | 0, s => s
  | f + 1, s =>
    match findRefSelf s with
    | none => s
    | some (p, len) => s.take p ++ remRefSelfF f (s.drop (p + len))

/-- The fixed noisy-template prefix set of the source. -/
def noisySet : List Str :=
  ["infobox", "sidebar", "short description", "use", "pp", "authority control",
   "good article", "featured article", "distinguish", "hatnote", "reflist",
   "notelist", "about", "displaytitle", "refbegin", "refend", "cite",
   "citation", "portal", "taxonbar", "coord", "s-start", "s-end",
   "succession box", "navbox", "file:", "image:"].map String.toList

/-- The source's `isNoisyBlock`: inspect up to twenty characters inside the
block, lower-cased and trimmed; brace blocks test the whole prefix set,
bracket blocks only the file/image prefixes. -/
def isNoisy (text : Str) (start endp : Nat) (isBrace : Bool) : Bool :=
  let contentStart := start + 2
  if endp ≤ contentStart then false
  else
    let checkLen := min 20 (endp - contentStart)
    let sig := jsTrim (lowerS (sliceJS text contentStart (contentStart + checkLen)))
    if isBrace then noisySet.any (fun p => isPre p sig)
    else isPre ("file:".toList) sig || isPre ("image:".toList) sig

/-- The delimiter scan of `removeBalancedBlocks` (source lines 917-952):
two explicit stacks, ranges recorded for noisy matched pairs, cursor jumping
by two on any double delimiter; ranges are accumulated in reverse. -/
def rbScan (full : Str) : Str → Nat → List Nat → List Nat → List (Nat × Nat) →
    List (Nat × Nat)
  | c :: d :: cs, i, stB, stK, acc =>
    if c = '\x7b' && d = '\x7b' then rbScan full cs (i + 2) (i :: stB) stK acc
    else if c = '[' && d = '[' then rbScan full cs (i + 2) stB (i :: stK) acc
    else if c = '\x7d' && d = '\x7d' then
      match stB with
      | [] => rbScan full cs (i + 2) [] stK acc
      | st :: stB' =>
        rbScan full cs (i + 2) stB' stK
          (if isNoisy full st (i + 2) true then (st, i + 2) :: acc else acc)
    else if c = ']' && d = ']' then
      match stK with
      | [] => rbScan full cs (i + 2) stB [] acc
      | st :: stK' =>
        rbScan full cs (i + 2) stB stK'
          (if isNoisy full st (i + 2) false then (st, i + 2) :: acc else acc)
    else rbScan full (d :: cs) (i + 1) stB stK acc
  | _, _, _, _, acc => acc

/-- Ranges marked for deletion, in the order the source records them. -/
def rbRangesOf (text : Str) : List (Nat × Nat) := (rbScan text text 0 [] [] []).reverse

/-- Insertion into a start-sorted range list. -/
def insRange (r : Nat × Nat) : List (Nat × Nat) → List (Nat × Nat)
  | [] => [r]
  | x :: xs => if r.1 < x.1 then r :: x :: xs else x :: insRange r xs

/-- Sort ranges by start offset. -/
def sortRanges (rs : List (Nat × Nat)) : List (Nat × Nat) := rs.foldr insRange []

/-- Merge of overlapping sorted ranges (strict overlap test, as the source). -/
def mergeGo : Nat × Nat → List (Nat × Nat) → List (Nat × Nat)
  | cur, [] => [cur]
  | cur, n :: rest =>
    if n.1 < cur.2 then mergeGo (cur.1, max cur.2 n.2) rest else cur :: mergeGo n rest

/-- Merged range list of a sorted range list. -/
def mergeRanges : List (Nat × Nat) → List (Nat × Nat)
  | [] => []
  | r :: rest => mergeGo r rest

/-- String rebuild excluding the merged ranges. -/
def rebuild (text : Str) : List (Nat × Nat) → Nat → Str
  | [], lastCur => text.drop lastCur
  | (s, e) :: rest, lastCur =>
    (if lastCur < s then sliceJS text lastCur s else []) ++ rebuild text rest (max lastCur e)

/-- The source's `removeBalancedBlocks`. -/
def removeBalancedBlocks (text : Str) : Str :=
  let ranges := rbRangesOf text
  if ranges = [] then text
  else rebuild text (mergeRanges (sortRanges ranges)) 0

/-- The source's `cleanWikiText`: comment and reference removal, then the
stack-based range exclusion. -/
def cleanWikiText (text : Str) : Str :=
  let s1 := remCommentsF (text.length + 1) text
  let s2 := remRefPairF (s1.length + 1) s1
  let s3 := remRefSelfF (s2.length + 1) s2
  removeBalancedBlocks s3

/-! ## Variant 2: inline scanner (`processInlineFormatting`, lines 1456-1797) -/

/-- Inline element emitted by the variant-2 scanner (one constructor per
rendering branch of the source). -/
inductive ElemV2 where
  | str (s : Str)
  | strong (s : Str)
  | em (s : Str)
  | codeE (s : Str)
  | wikilink (target : Str) (label : Str)
  | extlink (url : Str) (label : Str)
  | mathDollar (latex : Str)
  | mathTag (latex : Str) (display : Bool)
  | supE (inner : List ElemV2)
  | subE (inner : List ElemV2)
  | annotated (target : Str)
  | ipac (s : Str)
  | respell (s : Str)
  | codeTpl (s : Str)
  | webarch (url : Str) (title : Str) (date : Option Str)
  | syntaxInline (code : Str)
  | codeTag (s : Str)

/-- Kinds of the token-start alternation of the variant-2 scanner. -/
inductive TokV2K where
  | wikilink | quotes | dollar | btick | exthttp | mathT | supT | subT
  | tmpl | syntaxT | codeT
deriving DecidableEq

/-- Token-start match at the head of `s`, testing the alternatives in the
order of the source regex. -/
def tokV2At (s : Str) : Option (TokV2K × Nat) :=
  if isPre ("[[".toList) s then some (.wikilink, 2)
  else if isPre q2 s then some (.quotes, 2)
  else if isPre ("$".toList) s then some (.dollar, 1)
  else if isPre [bqc] s then some (.btick, 1)
  else if isPre ("[http".toList) s then some (.exthttp, 5)
  else if isPre ("<math".toList) s then some (.mathT, 5)
  else if isPre ("<sup".toList) s then some (.supT, 4)
  else if isPre ("<sub".toList) s then some (.subT, 4)
  else if isPre ("\x7b\x7b".toList) s then some (.tmpl, 2)
  else if isPre ("<syntaxhighlight".toList) s then some (.syntaxT, 16)
  else if isPre ("<code".toList) s then some (.codeT, 5)
  else none

/-- Leftmost token-start match in the scanned suffix: offset, kind, length. -/
def findTokV2Aux : Str → Nat → Option (Nat × TokV2K × Nat)
  | [], _ => none
  | s@(_ :: rest), i =>
    match tokV2At s with
    | some (k, l) => some (i, k, l)
    | none => findTokV2Aux rest (i + 1)

/-- First token-start match of `s`. -/
def findTokV2 (s : Str) : Option (Nat × TokV2K × Nat) := findTokV2Aux s 0

/-- Occurrence of `pat` in `text` at or after position `from`. -/
def idxFrom (pat text : Str) (start : Nat) : Option Nat :=
  (findSub pat (text.drop start)).map (· + start)

/-- Space-to-underscore mapping applied to wiki-link targets. -/
def uscore (c : Char) : Char := if c = ' ' then '_' else c

/-- Strip one leading and one trailing double quote (the source's
`replace` of the anchored quote alternation). -/
def stripDQ (s : Str) : Str :=
  let s1 := if isPre ("\"".toList) s then s.drop 1 else s
  if isSuf ("\"".toList) s1 then s1.dropLast else s1

/-- Key-value pairs of a `webarchive` template, in order. -/
def tplParams : List Str → List (Str × Str)
  | [] => []
  | p :: rest =>
    match findSub ("=".toList) p with
    | some eq =>
      (lowerS (jsTrim (p.take eq)), stripDQ (jsTrim (p.drop (eq + 1)))) :: tplParams rest
    | none => tplParams rest

/-- Last binding of a key (later assignments overwrite earlier ones). -/
def lastParam (ps : List (Str × Str)) (k : Str) : Option Str :=
  (ps.filter (fun e => e.1 = k)).getLast?.map (fun e => e.2)

/-- Handler of one matched token of the variant-2 inline scanner
(the big `if`/`else` ladder of `processInlineFormatting`): emitted elements
and the new scan position; `recur` re-enters the scanner for the body of a
`sup`/`sub` tag. -/
def inlHandleV2 (recur : Str → List ElemV2) (text : Str) (idx : Nat) (kind : TokV2K)
    (tlen : Nat) : List ElemV2 × Nat :=
  let unh : List ElemV2 × Nat := ([ElemV2.str (sliceJS text idx (idx + tlen))], idx + tlen)
  match kind with
  | .wikilink =>
    match idxFrom ("]]".toList) text (idx + 2) with
    | some e =>
      let content := sliceJS text (idx + 2) e
      let tl : Str × Str :=
        match findSub ("|".toList) content with
        | none => (content, content)
        | some pi => (content.take pi, content.drop (pi + 1))
      ([ElemV2.wikilink ((jsTrim tl.1).map uscore)
          (if tl.2 = [] then tl.1 else tl.2)], e + 2)
    | none => unh
  | .btick =>
    match idxFrom [bqc] text (idx + 1) with
    | some e => ([ElemV2.codeE (sliceJS text (idx + 1) e)], e + 1)
    | none => unh
  | .quotes =>
    let tryBold : Option (List ElemV2 × Nat) :=
      if isPre q3 (text.drop idx) then
        match idxFrom q3 text (idx + 3) with
        | some e => some ([ElemV2.strong (sliceJS text (idx + 3) e)], e + 3)
        | none => none
      else none
    match tryBold with
    | some r => r
    | none =>
      match idxFrom q2 text (idx + 2) with
      | some e => ([ElemV2.em (sliceJS text (idx + 2) e)], e + 2)
      | none => unh
  | .dollar =>
    match idxFrom ("$".toList) text (idx + 1) with
    | some e => ([ElemV2.mathDollar (sliceJS text (idx + 1) e)], e + 1)
    | none => unh
  | .mathT =>
    match idxFrom ("</math>".toList) text idx with
    | some e =>
      let fullTag := sliceJS text idx (e + 7)
      match findSub (">".toList) fullTag with
      | some g =>
        ([ElemV2.mathTag (sliceJS fullTag (g + 1) (fullTag.length - 7))
            (hasSub dqBlock fullTag)], e + 7)
      | none => unh
    | none => unh
  | .supT =>
    match idxFrom ("</sup>".toList) text idx with
    | some e =>
      match idxFrom (">".toList) text idx with
      | some g =>
        if g < e then
          ([ElemV2.supE (recur (sliceJS text (g + 1) e))], e + 6)
        else unh
      | none => unh
    | none => unh
  | .subT =>
    match idxFrom ("</sub>".toList) text idx with
    | some e =>
      match idxFrom (">".toList) text idx with
      | some g =>
        if g < e then
          ([ElemV2.subE (recur (sliceJS text (g + 1) e))], e + 6)
        else unh
      | none => unh
    | none => unh
  | .tmpl =>
    match idxFrom ("\x7d\x7d".toList) text (idx + 2) with
    | some e =>
      let content := sliceJS text (idx + 2) e
      let parts := splitOnC '|' content
      let ty := lowerS (jsTrim (parts.headD []))
      if ty = ("annotated link".toList) &&
          (match parts with | _ :: p1 :: _ => p1 ≠ [] | _ => false) then
        ([ElemV2.annotated (jsTrim (parts.getD 1 []))], e + 2)
      else if ty = ("ipac-en".toList) then
        ([ElemV2.ipac (((parts.drop 1).filter
            (fun p => !hasSub ("=".toList) p)).flatten)], e + 2)
      else if ty = ("respell".toList) then
        ([ElemV2.respell (List.intercalate ("-".toList) (parts.drop 1))], e + 2)
      else if ty = ("lisp2".toList) || ty = ("code".toList) then
        ([ElemV2.codeTpl (List.intercalate ("|".toList) (parts.drop 1))], e + 2)
      else if ty = ("webarchive".toList) then
        let ps := tplParams (parts.drop 1)
        match lastParam ps ("url".toList) with
        | some u =>
          if u ≠ [] then
            let title :=
              match lastParam ps ("title".toList) with
              | some t => if t ≠ [] then t else ("Archived Link".toList)
              | none => ("Archived Link".toList)
            let date :=
              match lastParam ps ("date".toList) with
              | some d => if d ≠ [] then some d else none
              | none => none
            ([ElemV2.webarch u title date], e + 2)
          else unh
        | none => unh
      else unh
    | none => unh
  | .exthttp =>
    match idxFrom ("]".toList) text idx with
    | some e =>
      let content := sliceJS text (idx + 1) e
      let ul : Str × Str :=
        match findSub (" ".toList) content with
        | none => (content, content)
        | some sp => (content.take sp, content.drop (sp + 1))
      ([ElemV2.extlink ul.1 ul.2], e + 1)
    | none => unh
  | .syntaxT =>
    match idxFrom ("</syntaxhighlight>".toList) text idx with
    | some e =>
      let fullTag := sliceJS text idx (e + 18)
      match findSub (">".toList) fullTag with
      | some g =>
        ([ElemV2.syntaxInline (sliceJS fullTag (g + 1) (fullTag.length - 18))], e + 18)
      | none => unh
    | none => unh
  | .codeT =>
    match idxFrom ("</code>".toList) text idx with
    | some e =>
      match idxFrom (">".toList) text idx with
      | some g =>
        if g < e then ([ElemV2.codeTag (sliceJS text (g + 1) e)], e + 7) else unh
      | none => unh
    | none => unh

/-- The variant-2 inline scanner loop: `inlV2Go fuel text pos` processes
`text` from position `pos` (the source's `lastIndex`). -/
def inlV2Go : Nat → Str → Nat → List ElemV2
  | 0, _, _ => []
  | f + 1, text, pos =>
    match findTokV2 (text.drop pos) with
    | none => if pos < text.length then [ElemV2.str (text.drop pos)] else []
    | some (off, kind, tlen) =>
      let idx := pos + off
      let pre : List ElemV2 := if pos < idx then [ElemV2.str (sliceJS text pos idx)] else []
      let r := inlHandleV2 (fun s => inlV2Go f s 0) text idx kind tlen
      pre ++ r.1 ++ inlV2Go f text r.2

/-- The variant-2 `processInlineFormatting` entry point. -/
def processInlineV2 (text : Str) : List ElemV2 :=
  inlV2Go ((text.length + 1) * (text.length + 1)) text 0

/-! ## Variant 2: block parser (`parseContent` etc., lines 1025-1452) -/

/-- Block node of the variant-2 parser.  `nullNode` models the `null`
element that the paragraph branch can push into the output array. -/
inductive NodeV2 where
  | nullNode
  | table (rows : List (List (Bool × List ElemV2)))
  | codeBlock (lang : Str) (text : Str)
  | syntaxBlock (lang : Str) (code : Str)
  | mathBlock (latex : Str)
  | heading (tag : Nat) (anchorId : Str) (content : List ElemV2)
  | listN (ordered : Bool) (items : List (List ElemV2))
  | pre (text : Str)
  | quote (content : List ElemV2)
  | hr
  | para (content : List ElemV2)

/-- Split on a multi-character separator (`String.prototype.split` on the
two-pipe pattern). -/
def splitSubAux (pat : Str) : Nat → Str → Str → List Str
  | 0, s, acc => [acc.reverse ++ s]
  | f + 1, s, acc =>
    match s with
    | [] => [acc.reverse]
    | c :: cs =>
      if isPre pat s then acc.reverse :: splitSubAux pat f (s.drop pat.length) []
      else splitSubAux pat f cs (c :: acc)

/-- Split a text on every occurrence of `pat`. -/
def splitOnSub (pat s : Str) : List Str := splitSubAux pat (s.length + 1) s []

/-- Head-character test for a possibly empty line. -/
def headIs (ch : Char) (t : Str) : Bool :=
  match t with
  | c :: _ => c = ch
  | [] => false

/-- Table-body loop of variant-2 `parseTable` (source lines 1140-1177). -/
def tableGoV2 : List Str → List (List (Bool × List ElemV2)) →
    List (Bool × List ElemV2) → Nat → List (List (Bool × List ElemV2)) × Nat
  | [], rows, cur, n => (if !cur.isEmpty then rows ++ [cur] else rows, n)
  | l :: rest, rows, cur, n =>
    let t := jsTrim l
    if isPre ("|\x7d".toList) t then (if !cur.isEmpty then rows ++ [cur] else rows, n + 1)
    else if t = [] then tableGoV2 rest rows cur (n + 1)
    else if isPre ("|-".toList) t then
      tableGoV2 rest (if !cur.isEmpty then rows ++ [cur] else rows) [] (n + 1)
    else if isPre ("|".toList) t || isPre ("!".toList) t then
      let cells := splitOnSub ("||".toList) (t.drop 1)
      let isH := isPre ("!".toList) t
      tableGoV2 rest rows (cur ++ cells.map (fun c => (isH, processInlineV2 (jsTrim c)))) (n + 1)
    else tableGoV2 rest rows cur (n + 1)

/-- Variant-2 `parseTable`: node and consumed line count. -/
def parseTableV2 (lines : List Str) : NodeV2 × Nat :=
  let r := tableGoV2 (lines.drop 1) [] [] 0
  (NodeV2.table r.1, 1 + r.2)

/-- Three backticks. -/
def bt3 : Str := [bqc, bqc, bqc]

/-- Fence-body loop of variant-2 `parseFencedCode`. -/
def fencedGo : List Str → List Str × Nat
  | [] => ([], 0)
  | l :: rest =>
    if isPre bt3 (jsTrim l) then ([], 1)
    else
      let r := fencedGo rest
      (l :: r.1, r.2 + 1)

/-- Variant-2 `parseFencedCode` applied at the opening line. -/
def parseFencedV2 (l : Str) (rest : List Str) : NodeV2 × Nat :=
  let lang := jsTrim ((jsTrim l).drop 3)
  let r := fencedGo rest
  (NodeV2.codeBlock lang (List.intercalate ['\n'] r.1), 1 + r.2)

/-- Line collection of variant-2 `parseSyntaxHighlight` (stop after the line
containing the closing tag). -/
def shGo : List Str → List Str × Nat
  | [] => ([], 0)
  | l :: rest =>
    if hasSub ("</syntaxhighlight>".toList) (lowerS l) then ([l], 1)
    else
      let r := shGo rest
      (l :: r.1, r.2 + 1)

/-- Full-block match of the syntax-highlight regex: language attribute and
body, or `none` when the block has no well-formed opening tag or closer. -/
def shMatch (fullBlock : Str) : Option (Str × Str) :=
  match findSubCI ("<syntaxhighlight".toList) fullBlock with
  | none => none
  | some p =>
    let after := fullBlock.drop (p + 16)
    let mid := after.takeWhile (fun c => c ≠ '>')
    if isPre (">".toList) (after.drop mid.length) then
      let rest0 := after.drop (mid.length + 1)
      match findSubCI ("</syntaxhighlight>".toList) rest0 with
      | none => none
      | some h =>
        let ws := mid.takeWhile isWsC
        let aw := mid.drop ws.length
        let lang :=
          if lowerS (aw.take 6) = lowerS ("lang=\"".toList) then
            let x := (aw.drop 6).takeWhile (fun c => c ≠ '"')
            if isPre ("\"".toList) ((aw.drop 6).drop x.length) then x else []
          else []
        some (lang, rest0.take h)
    else none

/-- First match of the opening syntax-highlight tag alone. -/
def shOpenMatch (s : Str) : Option (Nat × Nat) :=
  match findSubCI ("<syntaxhighlight".toList) s with
  | none => none
  | some p =>
    let after := s.drop (p + 16)
    let mid := after.takeWhile (fun c => c ≠ '>')
    if isPre (">".toList) (after.drop mid.length) then some (p, 16 + mid.length + 1)
    else none

/-- Fallback extraction when the full pattern fails: first opening tag and
first closer are removed. -/
def shFallback (fullBlock : Str) : Str :=
  let s1 :=
    match shOpenMatch fullBlock with
    | some (p, len) => fullBlock.take p ++ fullBlock.drop (p + len)
    | none => fullBlock
  match findSubCI ("</syntaxhighlight>".toList) s1 with
  | some p => s1.take p ++ s1.drop (p + 18)
  | none => s1

/-- Variant-2 `parseSyntaxHighlight`. -/
def parseSyntaxV2 (lines : List Str) : NodeV2 × Nat :=
  let r := shGo lines
  let fullBlock := List.intercalate ['\n'] r.1
  match shMatch fullBlock with
  | some (lang, code) => (NodeV2.syntaxBlock lang (jsTrim code), r.2)
  | none => (NodeV2.syntaxBlock [] (jsTrim (shFallback fullBlock)), r.2)

/-- Body loop of multi-line block math: collect until a line ending in the
двойной dollar terminator. -/
def bmGo : List Str → List Str × Nat × Bool
  | [] => ([], 0, false)
  | l :: rest =>
    if isSuf ("$$".toList) (jsTrim l) then ([], 0, true)
    else
      let r := bmGo rest
      (l :: r.1, r.2.1 + 1, r.2.2)

/-- Variant-2 `parseBlockMath` applied at the opening line. -/
def parseBlockMathV2 (l : Str) (rest : List Str) : NodeV2 × Nat :=
  let t := jsTrim l
  if isSuf ("$$".toList) t && 2 < t.length then
    (NodeV2.mathBlock (sliceJS t 2 (t.length - 2)), 1)
  else
    let r := bmGo rest
    (NodeV2.mathBlock (List.intercalate ['\n'] r.1), 1 + r.2.1 + (if r.2.2 then 1 else 0))

/-- Identifier character of the heading anchor (`[a-z0-9]` after
lower-casing). -/
def isIdC (c : Char) : Bool := ('a' ≤ c && c ≤ 'z') || ('0' ≤ c && c ≤ '9')

/-- Replace every run of non-identifier characters by one hyphen. -/
def idGo : Str → Bool → Str
  | [], _ => []
  | c :: cs, inRun =>
    if isIdC c then c :: idGo cs false
    else if inRun then idGo cs true
    else '-' :: idGo cs true

/-- Anchor id of a heading (source line 1338). -/
def anchorIdOf (text : Str) : Str := idGo (lowerS text) false

/-- Variant-2 `parseHeading` (source lines 1315-1347): counts the `=` runs,
clamps the tag into 1..6 and always produces a node. -/
def parseHeadingV2 (line : Str) : NodeV2 :=
  let t := jsTrim line
  let sEq := (t.takeWhile (fun c => c = '=')).length
  let eEq := (t.reverse.takeWhile (fun c => c = '=')).length
  let lvl := min sEq eEq
  let text := jsTrim (sliceJS t sEq (t.length - eEq))
  NodeV2.heading (max 1 (min 6 lvl)) (anchorIdOf text) (processInlineV2 text)

/-- Item pattern of variant-2 `parseList`: `*`/`-` (unordered) or
`#`/digits-dot (ordered), at least one whitespace character, then a
non-empty remainder. -/
def listItemV2 (ord : Bool) (t : Str) : Option Str :=
  let g1 : Option Nat :=
    if !ord then
      match t with
      | c :: _ => if c = '*' || c = '-' then some 1 else none
      | [] => none
    else
      match t with
      | c :: _ =>
        if c = '#' then some 1
        else
          let ds := t.takeWhile Char.isDigit
          if ds ≠ [] && isPre (".".toList) (t.drop ds.length) then some (ds.length + 1)
          else none
      | [] => none
  match g1 with
  | none => none
  | some k =>
    let rest := t.drop k
    let w := rest.takeWhile isWsC
    if 1 ≤ w.length && rest.drop w.length ≠ [] then some (rest.drop w.length) else none

/-- Consecutive matching items of variant-2 `parseList` with their count. -/
def listItemsV2 (ord : Bool) : List Str → List Str × Nat
  | [] => ([], 0)
  | l :: rest =>
    match listItemV2 ord (jsTrim l) with
    | none => ([], 0)
    | some it =>
      let r := listItemsV2 ord rest
      (it :: r.1, r.2 + 1)

/-- Variant-2 `parseList`: consumed count may be zero when the first line
fails the item pattern. -/
def parseListV2 (ord : Bool) (lines : List Str) : NodeV2 × Nat :=
  let r := listItemsV2 ord lines
  (NodeV2.listN ord (r.1.map processInlineV2), r.2)

/-- Body loop of variant-2 `parseIndentedCode`: lines starting with a space
or blank, one leading space stripped. -/
def indGo : List Str → List Str × Nat
  | [] => ([], 0)
  | l :: rest =>
    if isPre (" ".toList) l || jsTrim l = [] then
      let stripped := if isPre (" ".toList) l then l.drop 1 else l
      let r := indGo rest
      (stripped :: r.1, r.2 + 1)
    else ([], 0)

/-- Variant-2 `parseIndentedCode`. -/
def parseIndentedV2 (lines : List Str) : NodeV2 × Nat :=
  let r := indGo lines
  (NodeV2.pre (List.intercalate ['\n'] r.1), r.2)

/-- Body loop of variant-2 `parseBlockquote`. -/
def bqGo : List Str → List Str × Nat
  | [] => ([], 0)
  | l :: rest =>
    let t := jsTrim l
    if isPre (">".toList) t then
      let r := bqGo rest
      (jsTrim (t.drop 1) :: r.1, r.2 + 1)
    else ([], 0)

/-- Variant-2 `parseBlockquote`. -/
def parseBlockquoteV2 (lines : List Str) : NodeV2 × Nat :=
  let r := bqGo lines
  (NodeV2.quote (processInlineV2 (List.intercalate [' '] r.1)), r.2)

/-- Break set of the variant-2 paragraph collector (character codes 61, 96,
123, 36, 35, 42, 45, 62 of the source). -/
def paraBreakC (t : Str) : Bool :=
  match t with
  | c :: _ =>
    c = '=' || c = bqc || c = '\x7b' || c = '$' || c = '#' || c = '*' || c = '-' || c = '>'
  | [] => false

/-- Line collection of variant-2 `parseParagraph`: a blank line is consumed
and ends the paragraph, a break character ends it unconsumed. -/
def paraCollV2 : List Str → List Str × Nat
  | [] => ([], 0)
  | l :: rest =>
    let t := jsTrim l
    if t = [] then ([], 1)
    else if paraBreakC t then ([], 0)
    else
      let r := paraCollV2 rest
      (t :: r.1, r.2 + 1)

/-- Variant-2 `parseParagraph`: `none` (a pushed `null`) when no line was
collected. -/
def parseParagraphV2 (lines : List Str) : Option NodeV2 × Nat :=
  let r := paraCollV2 lines
  if r.1 = [] then (none, 1)
  else (some (NodeV2.para (processInlineV2 (List.intercalate [' '] r.1))), r.2)

/-- List gate of the variant-2 dispatcher: marker characters or a
digits-dot prefix with a non-zero leading digit. -/
def listGateC (t : Str) : Bool :=
  match t with
  | c :: _ =>
    (c = '*' || c = '#' || c = '-') ||
      (('1' ≤ c && c ≤ '9') &&
        (let ds := t.takeWhile Char.isDigit
         ds ≠ [] && isPre (".".toList) (t.drop ds.length)))
  | [] => false

/-- One iteration of the variant-2 block loop (source lines 1031-1127),
returning pushed nodes (possibly the `null` element) and consumed lines. -/
def stepV2 (lines : List Str) : List NodeV2 × Nat :=
  match lines with
  | [] => ([], 1)
  | l :: rest =>
    let t := jsTrim l
    if t = [] then ([], 1)
    else if isPre ("\x7b|".toList) t then
      let r := parseTableV2 lines
      ([r.1], r.2)
    else if isPre bt3 t then
      let r := parseFencedV2 l rest
      ([r.1], r.2)
    else if isPre ("$$".toList) t then
      let r := parseBlockMathV2 l rest
      ([r.1], r.2)
    else if headIs '=' t && isSuf ("=".toList) t then
      ([parseHeadingV2 l], 1)
    else
      let listTry : Option (List NodeV2 × Nat) :=
        if listGateC t then
          let ord := !(headIs '*' t || headIs '-' t)
          let r := parseListV2 ord lines
          if 0 < r.2 then some ([r.1], r.2) else none
        else none
      match listTry with
      | some r => r
      | none =>
        if isPre (" ".toList) l &&
            !(headIs '#' t || headIs '*' t || headIs '-' t || headIs '=' t) then
          let r := parseIndentedV2 lines
          ([r.1], r.2)
        else if headIs '>' t then
          let r := parseBlockquoteV2 lines
          ([r.1], r.2)
        else if headIs '-' t && hrLine t then
          ([NodeV2.hr], 1)
        else if isPre ("<syntaxhighlight".toList) t then
          let r := parseSyntaxV2 lines
          ([r.1], r.2)
        else
          match parseParagraphV2 lines with
          | (some n, k) => ([n], k)
          | (none, k) => ([NodeV2.nullNode], k)

/-- Fuelled variant-2 block loop. -/
def blkLoopV2 : Nat → List Str → List NodeV2
  | 0, _ => []
  | _, [] => []
  | f + 1, lines =>
    let r := stepV2 lines
    r.1 ++ blkLoopV2 f (lines.drop r.2)

/-- Line splitting of the variant-2 parser (`split(/\r?\n/)`). -/
def splitLinesV2Aux : Str → Str → List Str
  | [], acc => [acc.reverse]
  | '\r' :: '\n' :: cs, acc => acc.reverse :: splitLinesV2Aux cs []
  | '\n' :: cs, acc => acc.reverse :: splitLinesV2Aux cs []
  | c :: cs, acc => splitLinesV2Aux cs (c :: acc)

/-- Lines of a text for the variant-2 parser. -/
def splitLinesV2 (s : Str) : List Str := splitLinesV2Aux s []

/-- The variant-2 `parseContent`. -/
def parseContentV2 (text : Str) : List NodeV2 :=
  let lines := splitLinesV2 text
  blkLoopV2 (lines.length + 1) lines

/-- The variant-2 parse pipeline: noise stripping, then the block parser
(the component also short-circuits blank input before calling it). -/
def pipelineV2 (text : Str) : List NodeV2 := parseContentV2 (cleanWikiText text)

/-! ## Statement helpers -/

/-- Visible content of a variant-1 inline token: what the renderer displays
for it (labels for links, content for emphasis and code). -/
def visibleTok : Tok → Str
  | .text s => s
  | .bold s => s
  | .italic s => s
  | .bolditalic s => s
  | .link _ lab => lab
  | .wikilink _ lab => lab
  | .code s => s
  | .math s _ => s

/-- Concatenated visible content of a token sequence. -/
def visibleToks (ts : List Tok) : Str := (ts.map visibleTok).flatten

/-- Test for the `null` element of the variant-2 output. -/
def isNullN : NodeV2 → Bool
  | NodeV2.nullNode => true
  | _ => false

/-- A text on which another stripping pass finds nothing to remove: no
comment match, no reference-tag match, and no noisy balanced block. -/
def noNoise (s : Str) : Bool :=
  (findSub ("<!--".toList) s).isNone && (findRefPair s).isNone &&
    (findRefSelf s).isNone && (rbRangesOf s).isEmpty

/-- The deeply unbalanced brace input of the malformed-input property. -/
def bracesIn : Str := "\x7b\x7b\x7b\x7b\x7b\x7b".toList

/-- The odd quote run of the malformed-input property. -/
def quotesIn : Str := List.replicate 11 qc

/-- The bold-italic precedence input. -/
def biIn : Str := q5 ++ "bold italic".toList ++ q5

/-- A paragraph whose prose passes the real-word filter and ends in a
character outside the assignment-tail class before the `x =` fragment. -/
def lhsGoodIn : Str :=
  "Numbers considered carefully, x = \x7b\\displaystyle y^2\x7d and more prose.".toList

/-- A paragraph whose prose consists only of assignment-tail characters. -/
def lhsBadIn : Str :=
  "Alpha beta gamma delta x = \x7b\\displaystyle y^2\x7d tail prose here.".toList

/-- An input containing a literal placeholder-shaped substring and a bare
style wrapper around a math tag. -/
def phCollideIn : Str :=
  "Alpha beta gamma delta __MATH_1__ and \x7b\\displaystyle <math>x</math>\x7d here.".toList

/-- An input whose image-tag deletions splice a new image tag together. -/
def imgSpliceIn : Str := "<i<img x>mg y>".toList

/-- An inline span containing a placeholder-shaped literal that is absent
from the math table. -/
def strayPhIn : Str := "abc __MATH_99__ def".toList

theorem valDec_append_digit (xs : Str) (c : Char) :
    valDec (xs ++ [c]) = valDec xs * 10 + (c.toNat - 48) := by
  simp [valDec]

theorem decDig_toNat (d : Nat) (h : d < 10) : (decDig d).toNat - 48 = d := by
  interval_cases d <;> decide

theorem valDec_natDecF (f n : Nat) (h : n < 10 ^ f) : valDec (natDecF f n) = n := by
  induction f generalizing n with
  | zero =>
    have : n = 0 := by omega
    simp [this, natDecF, valDec]
  | succ f ih =>
    by_cases h10 : n < 10
    · have : valDec [decDig n] = (decDig n).toNat - 48 := by simp [valDec]
      simp [natDecF, h10, this, decDig_toNat n h10]
    · have hdiv : n / 10 < 10 ^ f := by
        have h1 : n < 10 ^ f * 10 := by rw [← Nat.pow_succ]; exact h
        exact Nat.div_lt_of_lt_mul (by omega)
      rw [natDecF]
      simp only [h10, if_false]
      rw [valDec_append_digit, ih _ hdiv, decDig_toNat _ (Nat.mod_lt _ (by omega))]
      omega

theorem valDec_natDec (n : Nat) : valDec (natDec n) = n := by
  have h : n < 10 ^ (n + 1) := by
    calc n < n + 1 := Nat.lt_succ_self n
    _ ≤ 10 ^ (n + 1) := by
          have := Nat.lt_pow_self (by omega : 1 < 10) (n := n + 1)
          omega
  exact valDec_natDecF (n + 1) n h

theorem natDec_injective : Function.Injective natDec := by
  intro m n h
  have := valDec_natDec m
  rw [h, valDec_natDec] at this
  omega

/-! ## Claim theorems -/

/-- C1.  The first variant's parse entry point turns both malformed inputs
(`\x7b\x7b\x7b\x7b\x7b\x7b` and eleven apostrophes) into one plain-text
paragraph, and the second variant turns the quote run into a paragraph with
literal text; but the second variant's entry point turns the brace input
into a single pushed `null` element, not a plain-text fallback block.  No
stage raises an exception: every embedded stage is a total function. -/
theorem parse_entry_malformed_safety :
    parseContentV1 bracesIn = [Blk.para [Tok.text bracesIn]] ∧
    parseContentV1 quotesIn = [Blk.para [Tok.bolditalic [qc]]] ∧
    pipelineV2 quotesIn =
      [NodeV2.para [ElemV2.strong [], ElemV2.em [], ElemV2.str [qc]]] ∧
    pipelineV2 bracesIn = [NodeV2.nullNode] :=
  ⟨by decide, by decide, rfl, rfl⟩

/-- C1, counterexample.  On the unbalanced brace input the second variant's
pipeline emits exactly one `null` element: its node sequence contains no
plain-text fallback block. -/
theorem parse_entry_braces_null_v2 :
    pipelineV2 bracesIn = [NodeV2.nullNode] ∧
    (pipelineV2 bracesIn).all isNullN = true :=
  ⟨rfl, rfl⟩

/-- C6.  The variant-1 tokenizer turns the five-quote span into a single
bold-italic token because the five-quote pattern is tried before the
three- and two-quote ones; the variant-2 scanner has no five-quote rule and
misparses the same span as a bold token swallowing two quotes, followed by
a literal two-quote remainder. -/
theorem bolditalic_precedence :
    tokenizeInline [] biIn = [Tok.bolditalic ("bold italic".toList)] ∧
    processInlineV2 biIn =
      [ElemV2.strong ([qc, qc] ++ "bold italic".toList), ElemV2.str [qc, qc]] :=
  ⟨by decide, rfl⟩

/-- C6, counterexample.  The variant-2 scanner does not produce a single
bold-italic token for the five-quote span: it yields a bold element whose
content starts with two stray quotes, then a literal quote pair. -/
theorem bolditalic_precedence_v2_misparse :
    processInlineV2 biIn =
      [ElemV2.strong ([qc, qc] ++ "bold italic".toList), ElemV2.str [qc, qc]] := rfl

/-- Characters that never interact with the delimiter scan. -/
theorem rbScan_clean (full : Str) :
    ∀ (cs : Str) (i : Nat) (stB stK : List Nat) (acc : List (Nat × Nat)),
      (∀ c ∈ cs, c ≠ '\x7b' ∧ c ≠ '\x7d' ∧ c ≠ '[' ∧ c ≠ ']') →
      rbScan full cs i stB stK acc = acc := by
  intro cs
  induction cs with
  | nil => intro i stB stK acc _; rfl
  | cons c cs ih =>
    intro i stB stK acc h
    match cs with
    | [] => rfl
    | d :: rest =>
      have hc := h c (by simp)
      have hd := h d (by simp)
      simp only [rbScan, hc.1, hc.2.1, hc.2.2.1, hc.2.2.2, hd.1, decide_False,
        Bool.false_and, Bool.and_false, Bool.false_eq_true, if_false]
      exact ih (i + 1) stB stK acc (fun x hx => h x (by simp [hx]))

/-- C7.  The noise stripper deletes exactly the balanced noisy blocks: the
infobox and citation templates and the file embed of the property are
removed, a plain wiki link survives, an unmatched closing delimiter is a
no-op, an unmatched opening delimiter leaves its block intact, and a text
without any of the four delimiter characters is returned unchanged. -/
theorem noise_removal_exact :
    removeBalancedBlocks ("\x7b\x7binfobox | name = Foo\x7d\x7d prose".toList) =
      (" prose".toList) ∧
    removeBalancedBlocks ("\x7b\x7bcite web|url=http://x\x7d\x7d".toList) = [] ∧
    removeBalancedBlocks ("[[File:x.jpg|thumb]]".toList) = [] ∧
    removeBalancedBlocks ("[[Paris]]".toList) = ("[[Paris]]".toList) ∧
    removeBalancedBlocks ("\x7d\x7dabc".toList) = ("\x7d\x7dabc".toList) ∧
    removeBalancedBlocks ("\x7b\x7binfobox unclosed".toList) =
      ("\x7b\x7binfobox unclosed".toList) ∧
    ∀ s : Str, (∀ c ∈ s, c ≠ '\x7b' ∧ c ≠ '\x7d' ∧ c ≠ '[' ∧ c ≠ ']') →
      removeBalancedBlocks s = s := by
  refine ⟨by decide, by decide, by decide, by decide, by decide, by decide, ?_⟩
  intro s h
  have hscan := rbScan_clean s s 0 [] [] [] h
  simp [removeBalancedBlocks, rbRangesOf, hscan]

/-- C7, witness.  The universal conjunct applied to a concrete
delimiter-free text. -/
theorem noise_removal_exact_witness :
    removeBalancedBlocks ("plain text".toList) = ("plain text".toList) :=
  noise_removal_exact.2.2.2.2.2.2 _ (by decide)

/-- Comment removal is the identity when no comment opener matches. -/
theorem remCommentsF_id (f : Nat) (s : Str)
    (h : findSub ("<!--".toList) s = none) : remCommentsF f s = s := by
  have h2 : findSub ['<', '!', '-', '-'] s = none := h
  cases f with
  | zero => rfl
  | succ f => simp [remCommentsF, h2]

/-- Paired-reference removal is the identity when no match exists. -/
theorem remRefPairF_id (f : Nat) (s : Str) (h : findRefPair s = none) :
    remRefPairF f s = s := by
  cases f with
  | zero => rfl
  | succ f => simp [remRefPairF, h]

/-- Self-closing-reference removal is the identity when no match exists. -/
theorem remRefSelfF_id (f : Nat) (s : Str) (h : findRefSelf s = none) :
    remRefSelfF f s = s := by
  cases f with
  | zero => rfl
  | succ f => simp [remRefSelfF, h]

/-- Range exclusion is the identity when the scan marks no range. -/
theorem removeBalancedBlocks_id (s : Str) (h : rbRangesOf s = []) :
    removeBalancedBlocks s = s := by
  simp [removeBalancedBlocks, h]

/-- C8.  Stripping is idempotent on every input whose stripped form offers
nothing further to remove: when no comment, reference tag or noisy balanced
block can be found in `cleanWikiText x` (no noise marker was re-created by
the deletions), a second pass returns it unchanged. -/
theorem strip_idempotent (x : Str) (h : noNoise (cleanWikiText x) = true) :
    cleanWikiText (cleanWikiText x) = cleanWikiText x := by
  have h1 : (findSub ("<!--".toList) (cleanWikiText x)).isNone = true := by
    simp only [noNoise, Bool.and_eq_true] at h; exact h.1.1.1
  have h2 : (findRefPair (cleanWikiText x)).isNone = true := by
    simp only [noNoise, Bool.and_eq_true] at h; exact h.1.1.2
  have h3 : (findRefSelf (cleanWikiText x)).isNone = true := by
    simp only [noNoise, Bool.and_eq_true] at h; exact h.1.2
  have h4 : (rbRangesOf (cleanWikiText x)).isEmpty = true := by
    simp only [noNoise, Bool.and_eq_true] at h; exact h.2
  rw [Option.isNone_iff_eq_none] at h1 h2 h3
  rw [List.isEmpty_iff] at h4
  conv_lhs => rw [cleanWikiText]
  rw [remCommentsF_id _ _ h1, remRefPairF_id _ _ h2, remRefSelfF_id _ _ h3,
    removeBalancedBlocks_id _ h4]

/-- C8, witness.  A concrete input with a noisy template: one pass removes
it, the result is noise-free, and the second pass is the identity. -/
theorem strip_idempotent_witness :
    cleanWikiText (cleanWikiText ("\x7b\x7binfobox a\x7d\x7d text".toList)) =
      cleanWikiText ("\x7b\x7binfobox a\x7d\x7d text".toList) :=
  strip_idempotent _ (by decide)

/-- The rendered heading tag always lies between two and six. -/
theorem levelTag_bounds (l : Nat) : 2 ≤ levelTag l ∧ levelTag l ≤ 6 := by
  unfold levelTag
  repeat' split
  all_goals omega

/-- A leading equals-run of length at least two forces a double-equals
prefix. -/
theorem takeWhile_two_eq {t : Str}
    (h : 2 ≤ (t.takeWhile (fun c => c = '=')).length) :
    isPre ("==".toList) t = true := by
  match t with
  | [] => simp [List.takeWhile] at h
  | [c] =>
    by_cases hc : c = '='
    · simp [List.takeWhile, hc] at h
    · simp [List.takeWhile, hc] at h
  | c :: d :: rest =>
    by_cases hc : c = '='
    · by_cases hd : d = '='
      · subst hc; subst hd; simp [isPre]
      · subst hc; simp [List.takeWhile, hd] at h
    · simp [List.takeWhile, hc] at h

/-- C5.  Variant-1 heading behaviour: `== Title ==` gives a level-2 node,
`===== Title =====` level 5, `== ==` no node; a mismatched pair of runs
that are both at least two (`== Title ===`) still gives a heading at the
minimum level instead of degrading to a paragraph; every variant-1 heading
node has a tag in 2..6 and a trimmed line starting with `==`.  Variant 2
accepts single-equals runs: `= Title =` parses to a level-1 heading and the
empty `== ==` yields an empty level-2 heading node. -/
theorem heading_round_trip :
    parseHeadingV1 [] ("== Title ==".toList) =
      some (Blk.heading 2 [Tok.text ("Title".toList)]) ∧
    parseHeadingV1 [] ("===== Title =====".toList) =
      some (Blk.heading 5 [Tok.text ("Title".toList)]) ∧
    parseHeadingV1 [] ("== ==".toList) = none ∧
    parseHeadingV1 [] ("== Title ===".toList) =
      some (Blk.heading 2 [Tok.text ("Title".toList)]) ∧
    parseHeadingV2 ("= Title =".toList) =
      NodeV2.heading 1 ("title".toList) [ElemV2.str ("Title".toList)] ∧
    stepV2 [("== ==".toList)] = ([NodeV2.heading 2 [] []], 1) ∧
    ∀ (mb : MathTab) (line : Str) (b : Blk), parseHeadingV1 mb line = some b →
      ∃ lvl toks, b = Blk.heading (levelTag lvl) toks ∧
        2 ≤ levelTag lvl ∧ levelTag lvl ≤ 6 ∧
        isPre ("==".toList) (jsTrim line) = true := by
  refine ⟨by decide, by decide, by decide, by decide, rfl, rfl, ?_⟩
  intro mb line b hb
  unfold parseHeadingV1 at hb
  dsimp only at hb
  split at hb
  · exact absurd hb (by simp)
  · split at hb
    · exact absurd hb (by simp)
    · rename_i hguard htext
      injection hb with hb
      refine ⟨min ((jsTrim line).takeWhile (fun c => c = '=')).length
        ((jsTrim line).reverse.takeWhile (fun c => c = '=')).length, _, hb.symm, ?_, ?_, ?_⟩
      · exact (levelTag_bounds _).1
      · exact (levelTag_bounds _).2
      · simp only [Bool.or_eq_true, decide_eq_true_eq, not_or, not_lt] at hguard
        exact takeWhile_two_eq hguard.2

/-- C5, counterexample.  The variant-2 block parser produces a heading node
for a line whose equals runs have length one, at rendered level 1. -/
theorem heading_single_equals_v2 :
    stepV2 [("= Title =".toList)] =
      ([NodeV2.heading 1 ("title".toList) [ElemV2.str ("Title".toList)]], 1) := rfl

/-- A collected paragraph always costs at least one line. -/
theorem paraCollV2_pos (lines : List Str) (h : (paraCollV2 lines).1 ≠ []) :
    1 ≤ (paraCollV2 lines).2 := by
  match lines with
  | [] => simp [paraCollV2] at h
  | l :: rest =>
    simp only [paraCollV2] at h ⊢
    by_cases h1 : jsTrim l = []
    · simp [h1]
    · by_cases h2 : paraBreakC (jsTrim l) = true
      · simp [h1, h2] at h
      · simp [h1, h2]

/-- Variant-2 `parseParagraph` consumes at least one line. -/
theorem parseParagraphV2_pos (lines : List Str) : 1 ≤ (parseParagraphV2 lines).2 := by
  unfold parseParagraphV2
  dsimp only
  split
  · omega
  · rename_i h
    exact paraCollV2_pos lines h

/-- The indented-code handler consumes its gate line. -/
theorem parseIndentedV2_pos (l : Str) (rest : List Str)
    (h : isPre (" ".toList) l = true) : 1 ≤ (parseIndentedV2 (l :: rest)).2 := by
  simp only [parseIndentedV2, indGo, h, Bool.true_or, if_true]
  omega

/-- The blockquote handler consumes its gate line. -/
theorem parseBlockquoteV2_pos (l : Str) (rest : List Str)
    (h : isPre (">".toList) (jsTrim l) = true) :
    1 ≤ (parseBlockquoteV2 (l :: rest)).2 := by
  simp only [parseBlockquoteV2, bqGo, h, if_true]
  omega

/-- The syntax-highlight handler consumes at least one line. -/
theorem parseSyntaxV2_pos (l : Str) (rest : List Str) :
    1 ≤ (parseSyntaxV2 (l :: rest)).2 := by
  unfold parseSyntaxV2
  dsimp only
  have hgo : 1 ≤ (shGo (l :: rest)).2 := by
    simp only [shGo]
    split
    · omega
    · omega
  split
  · exact hgo
  · exact hgo

/-- A head-character test implies the singleton prefix test. -/
theorem headIs_isPre (c : Char) (t : Str) (h : headIs c t = true) :
    isPre [c] t = true := by
  match t with
  | [] => simp [headIs] at h
  | d :: rest =>
    simp only [headIs, decide_eq_true_eq] at h
    simp [isPre, h]

/-- The table handler consumes at least its opening line. -/
theorem parseTableV2_pos (lines : List Str) : 1 ≤ (parseTableV2 lines).2 := by
  simp only [parseTableV2]
  omega

/-- The fence handler consumes at least its opening line. -/
theorem parseFencedV2_pos (l : Str) (rest : List Str) :
    1 ≤ (parseFencedV2 l rest).2 := by
  simp only [parseFencedV2]
  omega

/-- The block-math handler consumes at least its opening line. -/
theorem parseBlockMathV2_pos (l : Str) (rest : List Str) :
    1 ≤ (parseBlockMathV2 l rest).2 := by
  unfold parseBlockMathV2
  dsimp only
  split
  · omega
  · omega

/-- Every iteration of the variant-2 block dispatcher consumes at least one
line: each taken branch reports a positive consumed count, and the list
handler is consulted only behind the dispatcher's positivity check. -/
theorem stepV2_consumed_pos (lines : List Str) : 1 ≤ (stepV2 lines).2 := by
  match lines with
  | [] => simp [stepV2]
  | l :: rest =>
    unfold stepV2
    dsimp only
    split
    · omega
    · split
      · exact parseTableV2_pos _
      · split
        · exact parseFencedV2_pos l rest
        · split
          · exact parseBlockMathV2_pos l rest
          · split
            · omega
            · split
              · rename_i r heq
                split at heq
                · split at heq
                  · rename_i hpos
                    injection heq with heq
                    subst heq
                    exact hpos
                  · exact absurd heq (by simp)
                · exact absurd heq (by simp)
              · split
                · rename_i hgate
                  exact parseIndentedV2_pos l rest (by
                    simp only [Bool.and_eq_true] at hgate
                    exact hgate.1)
                · split
                  · rename_i hq
                    exact parseBlockquoteV2_pos l rest (headIs_isPre _ _ hq)
                  · split
                    · omega
                    · split
                      · exact parseSyntaxV2_pos l rest
                      · split
                        · rename_i n k heq
                          have := parseParagraphV2_pos (l :: rest)
                          rw [heq] at this
                          exact this
                        · rename_i k heq
                          have := parseParagraphV2_pos (l :: rest)
                          rw [heq] at this
                          exact this

/-- Searching from a position never reports an earlier one. -/
theorem idxFrom_ge {pat text : Str} {start e : Nat}
    (h : idxFrom pat text start = some e) : start ≤ e := by
  simp only [idxFrom, Option.map_eq_some'] at h
  obtain ⟨p, _, rfl⟩ := h
  omega

/-- Every handled or unhandled token of the variant-2 inline scanner moves
the scan position strictly beyond the token start. -/
theorem inlHandleV2_progress (recur : Str → List ElemV2) (text : Str) (idx : Nat)
    (kind : TokV2K) (tlen : Nat) (h : 0 < tlen) :
    idx < (inlHandleV2 recur text idx kind tlen).2 := by
  unfold inlHandleV2
  cases kind
  case wikilink =>
    dsimp only
    split
    · rename_i e heq
      have := idxFrom_ge heq
      omega
    · omega
  case quotes =>
    dsimp only
    split
    · rename_i r heq
      split at heq
      · split at heq
        · rename_i e heq2
          have := idxFrom_ge heq2
          injection heq with heq
          subst heq
          dsimp only
          omega
        · exact absurd heq (by simp)
      · exact absurd heq (by simp)
    · split
      · rename_i e heq
        have := idxFrom_ge heq
        omega
      · omega
  case dollar =>
    dsimp only
    split
    · rename_i e heq
      have := idxFrom_ge heq
      omega
    · omega
  case btick =>
    dsimp only
    split
    · rename_i e heq
      have := idxFrom_ge heq
      omega
    · omega
  case exthttp =>
    dsimp only
    split
    · rename_i e heq
      have := idxFrom_ge heq
      omega
    · omega
  case mathT =>
    dsimp only
    split
    · rename_i e heq
      have := idxFrom_ge heq
      split
      · omega
      · omega
    · omega
  case supT =>
    dsimp only
    split
    · rename_i e heq
      have := idxFrom_ge heq
      split
      · split
        · omega
        · omega
      · omega
    · omega
  case subT =>
    dsimp only
    split
    · rename_i e heq
      have := idxFrom_ge heq
      split
      · split
        · omega
        · omega
      · omega
    · omega
  case tmpl =>
    dsimp only
    split
    · rename_i e heq
      have := idxFrom_ge heq
      split
      · omega
      · split
        · omega
        · split
          · omega
          · split
            · omega
            · split
              · split
                · split
                  · omega
                  · omega
                · omega
              · omega
    · omega
  case syntaxT =>
    dsimp only
    split
    · rename_i e heq
      have := idxFrom_ge heq
      split
      · omega
      · omega
    · omega
  case codeT =>
    dsimp only
    split
    · rename_i e heq
      have := idxFrom_ge heq
      split
      · split
        · omega
        · omega
      · omega
    · omega

/-- With any sufficient fuel the variant-2 block loop computes the same
output as with the canonical budget of one unit per line: the loop always
terminates within the budget because every step consumes a line. -/
theorem blkLoopV2_fuel_stable :
    ∀ (n f : Nat) (lines : List Str), lines.length ≤ n → lines.length < f →
      blkLoopV2 f lines = blkLoopV2 (lines.length + 1) lines := by
  intro n
  induction n with
  | zero =>
    intro f lines hn hf
    have hl : lines = [] := List.length_eq_zero.mp (Nat.le_zero.mp hn)
    subst hl
    match f, hf with
    | f + 1, _ => rfl
  | succ n ih =>
    intro f lines hn hf
    match lines with
    | [] =>
      match f, hf with
      | f + 1, _ => rfl
    | l :: rest =>
      match f, hf with
      | f + 1, _ =>
        have hk := stepV2_consumed_pos (l :: rest)
        have hdl : ((l :: rest).drop (stepV2 (l :: rest)).2).length < (l :: rest).length := by
          rw [List.length_drop]
          simp only [List.length_cons]
          omega
        have hlen : (l :: rest).length = rest.length + 1 := rfl
        have hdn : ((l :: rest).drop (stepV2 (l :: rest)).2).length ≤ n := by
          rw [hlen] at hdl
          omega
        have e1 := ih f ((l :: rest).drop (stepV2 (l :: rest)).2) hdn (by omega)
        have e2 := ih (rest.length + 1) ((l :: rest).drop (stepV2 (l :: rest)).2) hdn
          (by rw [hlen] at hdl; omega)
        show (stepV2 (l :: rest)).1 ++ blkLoopV2 f ((l :: rest).drop (stepV2 (l :: rest)).2) =
          (stepV2 (l :: rest)).1 ++
            blkLoopV2 rest.length.succ ((l :: rest).drop (stepV2 (l :: rest)).2)
        rw [e1, e2]

/-- C2, amended.  Every iteration of the variant-2 block dispatcher
consumes at least one line, so the block loop is insensitive to any
sufficient fuel budget (parsing any finite line list terminates within one
step per line); and every iteration of the variant-2 inline scanner moves
the scan position strictly past the matched token start, so inline
scanning of a finite span terminates as well. -/
theorem forward_progress :
    (∀ lines : List Str, 1 ≤ (stepV2 lines).2) ∧
    (∀ (f : Nat) (lines : List Str), lines.length < f →
      blkLoopV2 f lines = blkLoopV2 (lines.length + 1) lines) ∧
    (∀ (recur : Str → List ElemV2) (text : Str) (idx : Nat) (kind : TokV2K)
      (tlen : Nat), 0 < tlen → idx < (inlHandleV2 recur text idx kind tlen).2) :=
  ⟨stepV2_consumed_pos,
   fun f lines hf => blkLoopV2_fuel_stable lines.length f lines (Nat.le_refl _) hf,
   inlHandleV2_progress⟩

/-- C2, witness.  The progress facts applied at concrete inputs: a
one-line text consumes a positive line count, doubling the fuel leaves the
output unchanged, and the unhandled-token path advances past position 3. -/
theorem forward_progress_witness :
    1 ≤ (stepV2 [("hello".toList)]).2 ∧
    blkLoopV2 7 [("hello".toList)] = blkLoopV2 2 [("hello".toList)] ∧
    3 < (inlHandleV2 (fun _ => []) ("abc$".toList) 3 TokV2K.dollar 1).2 :=
  ⟨forward_progress.1 _,
   forward_progress.2.1 7 [("hello".toList)] (by decide),
   forward_progress.2.2 _ _ 3 TokV2K.dollar 1 (by decide)⟩

/-- C2, counterexample.  The variant-2 list handler is a block-level
parsing step that can report zero consumed lines: the dispatcher invokes it
on `*foo` (the list gate passes), and it returns consumed count 0. -/
theorem list_step_zero_consumed :
    listGateC (jsTrim ("*foo".toList)) = true ∧
    (parseListV2 false [("*foo".toList)]).2 = 0 :=
  ⟨by decide, by decide⟩

/-- Two adjacent index ranges concatenate. -/
theorem range'_zero_append (a b : Nat) :
    List.range' 0 a ++ List.range' a b = List.range' 0 (a + b) := by
  have h := List.range'_append 0 a b 1
  rw [Nat.zero_add, Nat.one_mul] at h
  rw [Nat.add_comm a b, ← h]

/-- Placeholder keys are injective in the extraction index. -/
theorem phKey_injective : Function.Injective phKey := by
  intro m n h
  unfold phKey at h
  exact natDec_injective (List.append_cancel_left (List.append_cancel_right h))

/-- The math-tag pass hands out consecutive placeholder keys starting at its
initial index, and returns the next free index. -/
theorem mathTagPassF_keys (f : Nat) :
    ∀ (s : Str) (idx : Nat),
      ((mathTagPassF f s idx).2.1).map Prod.fst =
        (List.range' idx (mathTagPassF f s idx).2.1.length).map phKey ∧
      (mathTagPassF f s idx).2.2 = idx + (mathTagPassF f s idx).2.1.length := by
  induction f with
  | zero => intro s idx; simp [mathTagPassF]
  | succ f ih =>
    intro s idx
    unfold mathTagPassF
    dsimp only
    split
    · simp
    · rename_i p len attrs content heq
      obtain ⟨ih1, ih2⟩ := ih (s.drop (p + len)) (idx + 1)
      constructor
      · simp only [List.map_cons, List.length_cons, List.range'_succ, ih1]
      · simp only [List.length_cons, ih2]
        omega

/-- The bare-style pass also hands out consecutive placeholder keys. -/
theorem barePassF_keys (f : Nat) :
    ∀ (s : Str) (idx : Nat),
      ((barePassF f s idx).2.1).map Prod.fst =
        (List.range' idx (barePassF f s idx).2.1.length).map phKey ∧
      (barePassF f s idx).2.2 = idx + (barePassF f s idx).2.1.length := by
  induction f with
  | zero => intro s idx; simp [barePassF]
  | succ f ih =>
    intro s idx
    unfold barePassF
    dsimp only
    split
    · simp
    · rename_i mm dd kk hchoice
      split
      · exact ih (s.drop (mm + 1)) idx
      · rename_i off heq
        obtain ⟨ih1, ih2⟩ := ih (s.drop (mm + off + 1)) (idx + 1)
        constructor
        · simp only [List.map_cons, List.length_cons, List.range'_succ, ih1]
        · simp only [List.length_cons, ih2]
          omega

/-- C3, amended.  For every input, the math extractor's table binds the
consecutive keys `__MATH_0__`, `__MATH_1__`, ... in order, one entry per
inserted key, and the keys are pairwise distinct; the claim's further
assertions fail (see the counterexample): a key need not occur exactly once
in the processed text, and the placeholder syntax is expressible in source
wikitext, so keys can collide with literal input. -/
theorem placeholder_table_unique (s : Str) :
    ((extractMathBlocks s).2).map Prod.fst =
      (List.range' 0 (extractMathBlocks s).2.length).map phKey ∧
    (((extractMathBlocks s).2).map Prod.fst).Nodup := by
  have hmain :
      ((extractMathBlocks s).2).map Prod.fst =
        (List.range' 0 (extractMathBlocks s).2.length).map phKey := by
    unfold extractMathBlocks
    dsimp only
    obtain ⟨h11, h12⟩ := mathTagPassF_keys ((fbPassAll (removeImg s)).length + 1)
      (fbPassAll (removeImg s)) 0
    obtain ⟨h21, h22⟩ := barePassF_keys
      ((mathTagPassF ((fbPassAll (removeImg s)).length + 1) (fbPassAll (removeImg s)) 0).1.length + 1)
      (mathTagPassF ((fbPassAll (removeImg s)).length + 1) (fbPassAll (removeImg s)) 0).1
      (mathTagPassF ((fbPassAll (removeImg s)).length + 1) (fbPassAll (removeImg s)) 0).2.2
    rw [List.map_append, h11, h21, List.length_append, ← List.map_append, h12, Nat.zero_add,
      range'_zero_append]
  refine ⟨hmain, ?_⟩
  rw [hmain]
  exact List.Nodup.map phKey_injective (List.nodup_range' _ _)

/-- C3, witness.  The key list of a one-formula input follows the scheme. -/
theorem placeholder_table_unique_witness :
    ((extractMathBlocks ("<math>x</math>".toList)).2).map Prod.fst =
      (List.range' 0 (extractMathBlocks ("<math>x</math>".toList)).2.length).map phKey :=
  (placeholder_table_unique _).1

/-- C3, counterexample.  On an input containing the literal text
`__MATH_1__` and a bare style wrapper around a math tag, the key
`__MATH_1__` occurs twice in the processed text and the key `__MATH_0__`
(whose placeholder was swallowed into the second extraction) occurs zero
times, while both have exactly one table entry. -/
theorem placeholder_collision_and_loss :
    countSubAt (phKey 1) (extractMathBlocks phCollideIn).1 = 2 ∧
    countSubAt (phKey 0) (extractMathBlocks phCollideIn).1 = 0 ∧
    ((extractMathBlocks phCollideIn).2).map Prod.fst = [phKey 0, phKey 1] :=
  ⟨by decide, by decide, by decide⟩

/-- Tokens produced by the quote matcher use its given constructor. -/
theorem emphAt_shape {delim : Str} {mk : Str → Tok} {s : Str} {t : Tok} {k : Nat}
    (h : emphAt delim mk s = some (t, k)) : ∃ c, t = mk c := by
  unfold emphAt at h
  split at h
  · split at h
    · injection h with h
      exact ⟨_, (congrArg Prod.fst h).symm⟩
    · exact absurd h (by simp)
  · exact absurd h (by simp)

/-- Tokens produced by the wiki-link matcher are wiki links. -/
theorem wikiLinkAt_shape {s : Str} {t : Tok} {k : Nat}
    (h : wikiLinkAt s = some (t, k)) : ∃ p l, t = Tok.wikilink p l := by
  unfold wikiLinkAt at h
  split at h
  · dsimp only at h
    split at h
    · exact absurd h (by simp)
    · split at h
      · injection h with h
        exact ⟨_, _, (congrArg Prod.fst h).symm⟩
      · split at h
        · split at h
          · exact absurd h (by simp)
          · split at h
            · injection h with h
              exact ⟨_, _, (congrArg Prod.fst h).symm⟩
            · exact absurd h (by simp)
        · exact absurd h (by simp)
  · exact absurd h (by simp)

/-- Tokens produced by the external-link matcher are external links. -/
theorem extLinkAt_shape {s : Str} {t : Tok} {k : Nat}
    (h : extLinkAt s = some (t, k)) : ∃ u l, t = Tok.link u l := by
  unfold extLinkAt at h
  split at h
  · dsimp only at h
    split at h
    · exact absurd h (by simp)
    · split at h
      · exact absurd h (by simp)
      · split at h
        · injection h with h
          exact ⟨_, _, (congrArg Prod.fst h).symm⟩
        · split at h
          · exact absurd h (by simp)
          · split at h
            · split at h
              · split at h
                · injection h with h
                  exact ⟨_, _, (congrArg Prod.fst h).symm⟩
                · split at h
                  · injection h with h
                    exact ⟨_, _, (congrArg Prod.fst h).symm⟩
                  · exact absurd h (by simp)
              · exact absurd h (by simp)
            · exact absurd h (by simp)
  · exact absurd h (by simp)

/-- Tokens produced by the inline-code matcher are code tokens. -/
theorem codeAt_shape {s : Str} {t : Tok} {k : Nat}
    (h : codeAt s = some (t, k)) : ∃ c, t = Tok.code c := by
  unfold codeAt at h
  split at h
  · dsimp only at h
    split at h
    · exact absurd h (by simp)
    · split at h
      · injection h with h
        exact ⟨_, (congrArg Prod.fst h).symm⟩
      · exact absurd h (by simp)
  · exact absurd h (by simp)

/-- No branch after the placeholder handling emits a display-math token. -/
theorem stepRestV1_no_display_math (s : Str) :
    ∀ t ∈ (stepRestV1 s).1, ∀ l : Str, t ≠ Tok.math l true := by
  intro t ht l
  unfold stepRestV1 at ht
  split at ht
  · rename_i t' k' heq
    simp only [List.mem_singleton] at ht
    obtain ⟨c, hc⟩ := emphAt_shape heq
    subst ht; subst hc; simp
  · split at ht
    · rename_i t' k' heq
      simp only [List.mem_singleton] at ht
      obtain ⟨c, hc⟩ := emphAt_shape heq
      subst ht; subst hc; simp
    · split at ht
      · rename_i t' k' heq
        simp only [List.mem_singleton] at ht
        obtain ⟨c, hc⟩ := emphAt_shape heq
        subst ht; subst hc; simp
      · split at ht
        · rename_i t' k' heq
          simp only [List.mem_singleton] at ht
          obtain ⟨p, lab, hc⟩ := wikiLinkAt_shape heq
          subst ht; subst hc; simp
        · split at ht
          · rename_i t' k' heq
            simp only [List.mem_singleton] at ht
            obtain ⟨u, lab, hc⟩ := extLinkAt_shape heq
            subst ht; subst hc; simp
          · split at ht
            · rename_i t' k' heq
              simp only [List.mem_singleton] at ht
              obtain ⟨c, hc⟩ := codeAt_shape heq
              subst ht; subst hc; simp
            · split at ht
              · simp only [List.mem_singleton] at ht
                subst ht; simp
              · simp only [List.mem_singleton] at ht
                subst ht; simp

/-- No iteration of the variant-1 tokenizer emits a display-math token. -/
theorem stepV1_no_display_math (mb : MathTab) (s : Str) :
    ∀ t ∈ (stepV1 mb s).1, ∀ l : Str, t ≠ Tok.math l true := by
  intro t ht l
  unfold stepV1 at ht
  split at ht
  · dsimp only at ht
    split at ht
    · rename_i content display heq
      split at ht
      · simp at ht
      · simp only [List.mem_singleton] at ht
        subst ht; simp
    · simp at ht
  · split at ht
    · split at ht
      · simp only [List.mem_singleton] at ht
        subst ht; simp
      · exact stepRestV1_no_display_math s t ht l
    · exact stepRestV1_no_display_math s t ht l

/-- Display-math tokens never appear in any variant-1 token sequence. -/
theorem tokGo_no_display_math (mb : MathTab) :
    ∀ (f : Nat) (s : Str) (t : Tok), t ∈ tokGo mb f s → ∀ l, t ≠ Tok.math l true := by
  intro f
  induction f with
  | zero => intro s t ht; simp [tokGo] at ht
  | succ f ih =>
    intro s t ht l
    match s with
    | [] => simp [tokGo] at ht
    | c :: rest =>
      simp only [tokGo, List.mem_append] at ht
      rcases ht with h1 | h2
      · exact stepV1_no_display_math mb _ t h1 l
      · exact ih _ t h2 l

/-- C4, amended.  A paragraph with prose, `x = {displaystyle y^2}` and more
prose splits into Paragraph, DisplayMath with latex `x=y^2` (the assignment
tail carved off by `takeLhsTailForMath` and merged into the math) and
Paragraph, provided a character outside the tail character class - here the
comma - bounds the tail match on the left, so the prose itself stays out of
the match; and a display-math token never appears in any inline token
sequence, so a display-math node is never nested inside a paragraph's
content. -/
theorem display_math_carveout :
    parseContentV1 lhsGoodIn =
      [Blk.para [Tok.text ("Numbers considered carefully,".toList)],
       Blk.displayMath ("x=y^2".toList),
       Blk.para [Tok.text (" and more prose.".toList)]] ∧
    ∀ (mb : MathTab) (f : Nat) (s : Str) (t : Tok), t ∈ tokGo mb f s →
      ∀ l, t ≠ Tok.math l true :=
  ⟨by decide, fun mb f s t ht l => tokGo_no_display_math mb f s t ht l⟩

/-- C4, witness.  The no-display-math conjunct applied to the lone token of
a one-character span. -/
theorem display_math_carveout_witness :
    Tok.text ['a'] ≠ Tok.math ['a'] true :=
  display_math_carveout.2 [] 2 ['a'] (Tok.text ['a']) (by decide) ['a']

/-- C4, counterexample.  When the preceding prose consists only of
assignment-tail-class characters, the lazy tail match of
`takeLhsTailForMath` starts at the prose's first character and the entire
prose is whitespace-stripped into the display math: the output has no
leading paragraph and the latex is not `x=y^2`. -/
theorem lhs_merge_absorbs_prose :
    parseContentV1 lhsBadIn =
      [Blk.displayMath ("Alphabetagammadeltax=y^2".toList),
       Blk.para [Tok.text (" tail prose here.".toList)]] := by decide

/-- A satisfied prefix test determines the corresponding take. -/
theorem isPre_take {p : Str} : ∀ {s : Str}, isPre p s = true → s.take p.length = p := by
  induction p with
  | nil => intro s _; simp
  | cons a p ih =>
    intro s h
    match s with
    | [] => simp [isPre] at h
    | c :: cs =>
      simp only [isPre, Bool.and_eq_true, decide_eq_true_eq] at h
      simp only [List.length_cons, List.take_succ_cons, ih h.2, h.1]

/-- A take-while run is the take of its own length. -/
theorem takeWhile_as_take (p : Char → Bool) (l : Str) :
    l.takeWhile p = l.take (l.takeWhile p).length := by
  induction l with
  | nil => simp
  | cons c cs ih =>
    by_cases h : p c
    · rw [List.takeWhile_cons, if_pos h, List.length_cons, List.take_succ_cons]
      congr 1
    · simp [List.takeWhile_cons, h]

/-- Monotonicity of take in the length bound, as a sublist. -/
theorem take_sublist_take (s : Str) {m n : Nat} (h : m ≤ n) :
    (s.take m).Sublist (s.take n) := by
  have he : s.take n = s.take m ++ (s.drop m).take (n - m) := by
    rw [← List.take_add]
    congr 1
    omega
  rw [he]
  exact List.sublist_append_left _ _

/-- A slice is a sublist of any take covering it. -/
theorem slice_sublist_take (s : Str) {a b k : Nat} (h : a + b ≤ k) :
    ((s.drop a).take b).Sublist (s.take k) := by
  have h1 : ((s.drop a).take b).Sublist (s.take (a + b)) := by
    rw [List.take_add]
    exact List.sublist_append_right _ _
  exact h1.trans (take_sublist_take s h)

/-- Trimming only drops characters. -/
theorem jsTrim_sublist (s : Str) : (jsTrim s).Sublist s := by
  have h1 : (trimR (trimL s)).Sublist (trimL s) := by
    unfold trimR
    have := (List.dropWhile_sublist isWsC (l := (trimL s).reverse)).reverse
    simpa using this
  exact h1.trans (List.dropWhile_sublist isWsC)

/-- A placeholder-free text has no placeholder match at any offset. -/
theorem searchPhAux_none {s : Str} : ∀ (i : Nat), searchPhAux s i = none →
    ∀ k, phAt (s.drop k) = none := by
  induction s with
  | nil => intro i _ k; simp [List.drop_nil]; rfl
  | cons c rest ih =>
    intro i h k
    simp only [searchPhAux] at h
    split at h
    · exact absurd h (by simp)
    · rename_i hph
      match k with
      | 0 => simpa using Option.not_isSome_iff_eq_none.mp (by simpa using hph)
      | k + 1 => exact ih (i + 1) h k

/-- Conversely, a text with no placeholder match at any offset searches to
none. -/
theorem searchPhAux_none_of {s : Str} : ∀ (i : Nat),
    (∀ k, phAt (s.drop k) = none) → searchPhAux s i = none := by
  induction s with
  | nil => intro i _; rfl
  | cons c rest ih =>
    intro i h
    have h0 := h 0
    rw [List.drop_zero] at h0
    simp only [searchPhAux, h0, Option.isSome_none, Bool.false_eq_true, if_false]
    refine ih (i + 1) ?_
    intro k
    have hk := h (k + 1)
    simpa using hk

/-- Concatenated visible content of a singleton token list. -/
theorem visibleToks_singleton (t : Tok) : visibleToks [t] = visibleTok t := by
  simp [visibleToks]

/-- Concatenated visible content distributes over append. -/
theorem visibleToks_append (a b : List Tok) :
    visibleToks (a ++ b) = visibleToks a ++ visibleToks b := by
  simp [visibleToks]

/-- A prefix followed by a take-while run equals one take. -/
theorem pre_run_take {sch rest : Str} (hp : isPre sch rest = true) (pred : Char → Bool) :
    sch ++ (rest.drop sch.length).takeWhile pred =
      rest.take (sch.length + ((rest.drop sch.length).takeWhile pred).length) := by
  rw [List.take_add, isPre_take hp]
  congr 1
  exact takeWhile_as_take _ _

/-- A take-while run of a suffix is a sublist of any take covering it. -/
theorem takeWhile_drop_sublist_take (pred : Char → Bool) (s : Str) (a k : Nat)
    (h : a + ((s.drop a).takeWhile pred).length ≤ k) :
    ((s.drop a).takeWhile pred).Sublist (s.take k) := by
  conv_lhs => rw [takeWhile_as_take pred (s.drop a)]
  exact slice_sublist_take s h

/-- The quote matcher's visible content is drawn from the consumed prefix. -/
theorem emphAt_visible {delim : Str} {mk : Str → Tok} {s : Str} {t : Tok} {k : Nat}
    (hmk : ∀ c, visibleTok (mk c) = c)
    (h : emphAt delim mk s = some (t, k)) : (visibleTok t).Sublist (s.take k) := by
  unfold emphAt at h
  split at h
  · split at h
    · rename_i j hclose
      injection h with h
      injection h with h1 h2
      subst h1
      subst h2
      rw [hmk]
      exact slice_sublist_take s (by omega)
    · exact absurd h (by simp)
  · exact absurd h (by simp)

/-- The wiki-link matcher's visible label is drawn from the consumed
prefix. -/
theorem wikiLinkAt_visible {s : Str} {t : Tok} {k : Nat}
    (h : wikiLinkAt s = some (t, k)) : (visibleTok t).Sublist (s.take k) := by
  unfold wikiLinkAt at h
  split at h
  · dsimp only at h
    split at h
    · exact absurd h (by simp)
    · split at h
      · injection h with h
        injection h with h1 h2
        subst h1
        subst h2
        rw [visibleTok]
        refine (jsTrim_sublist _).trans ?_
        exact takeWhile_drop_sublist_take _ s 2 _ (by omega)
      · split at h
        · split at h
          · exact absurd h (by simp)
          · split at h
            · injection h with h
              injection h with h1 h2
              subst h1
              subst h2
              rw [visibleTok]
              split
              · refine (jsTrim_sublist _).trans ?_
                exact takeWhile_drop_sublist_take _ s 2 _ (by omega)
              · refine (jsTrim_sublist _).trans ?_
                rw [List.drop_drop, List.drop_drop]
                exact takeWhile_drop_sublist_take _ s _ _ (by omega)
            · exact absurd h (by simp)
        · exact absurd h (by simp)
  · exact absurd h (by simp)

/-- The inline-code matcher's visible content is drawn from the consumed
prefix. -/
theorem codeAt_visible {s : Str} {t : Tok} {k : Nat}
    (h : codeAt s = some (t, k)) : (visibleTok t).Sublist (s.take k) := by
  unfold codeAt at h
  split at h
  · dsimp only at h
    split at h
    · exact absurd h (by simp)
    · split at h
      · injection h with h
        injection h with h1 h2
        subst h1
        subst h2
        rw [visibleTok]
        exact takeWhile_drop_sublist_take _ s 1 _ (by omega)
      · exact absurd h (by simp)
  · exact absurd h (by simp)

/-- The external-link matcher's visible label is drawn from the consumed
prefix. -/
theorem extLinkAt_visible {s : Str} {t : Tok} {k : Nat}
    (h : extLinkAt s = some (t, k)) : (visibleTok t).Sublist (s.take k) := by
  unfold extLinkAt at h
  split at h
  · dsimp only at h
    split at h
    · exact absurd h (by simp)
    · rename_i sch hsch
      have hp : isPre sch (s.drop 1) = true := by
        split at hsch
        · injection hsch with e
          subst e
          assumption
        · split at hsch
          · injection hsch with e
            subst e
            assumption
          · exact absurd hsch (by simp)
      split at h
      · exact absurd h (by simp)
      · split at h
        · injection h with h
          injection h with h1 h2
          subst h1
          subst h2
          rw [visibleTok]
          conv_lhs => rw [pre_run_take hp (fun c => !isWsC c && c ≠ ']')]
          refine slice_sublist_take s ?_
          have hl : (sch ++ ((s.drop 1).drop sch.length).takeWhile
              (fun c => !isWsC c && c ≠ ']')).length =
              sch.length + (((s.drop 1).drop sch.length).takeWhile
                (fun c => !isWsC c && c ≠ ']')).length := by
            simp
          omega
        · split at h
          · exact absurd h (by simp)
          · split at h
            · split at h
              · split at h
                · injection h with h
                  injection h with h1 h2
                  subst h1
                  subst h2
                  rw [visibleTok]
                  refine (List.drop_sublist _ _).trans ?_
                  simp only [List.drop_drop]
                  refine (takeWhile_drop_sublist_take _ s _ _ ?_)
                  have hl : (sch ++ ((s.drop (1 + sch.length)).takeWhile
                      (fun c => !isWsC c && c ≠ ']'))).length =
                      sch.length + ((s.drop (1 + sch.length)).takeWhile
                        (fun c => !isWsC c && c ≠ ']')).length := by
                    simp
                  omega
                · split at h
                  · injection h with h
                    injection h with h1 h2
                    subst h1
                    subst h2
                    rw [visibleTok]
                    refine (List.drop_sublist _ _).trans ?_
                    simp only [List.drop_drop]
                    refine (takeWhile_drop_sublist_take _ s _ _ ?_)
                    have hl : (sch ++ ((s.drop (1 + sch.length)).takeWhile
                        (fun c => !isWsC c && c ≠ ']'))).length =
                        sch.length + ((s.drop (1 + sch.length)).takeWhile
                          (fun c => !isWsC c && c ≠ ']')).length := by
                      simp
                    omega
                  · exact absurd h (by simp)
              · exact absurd h (by simp)
            · exact absurd h (by simp)
  · exact absurd h (by simp)

/-- Every post-placeholder branch of the variant-1 tokenizer step draws its
visible content from the consumed prefix. -/
theorem stepRestV1_visible_sublist (s : Str) :
    (visibleToks (stepRestV1 s).1).Sublist (s.take (stepRestV1 s).2) := by
  unfold stepRestV1
  split
  · rename_i t k heq
    rw [visibleToks_singleton]
    refine emphAt_visible ?_ heq
    intro c
    rfl
  · split
    · rename_i t k heq
      rw [visibleToks_singleton]
      refine emphAt_visible ?_ heq
      intro c
      rfl
    · split
      · rename_i t k heq
        rw [visibleToks_singleton]
        refine emphAt_visible ?_ heq
        intro c
        rfl
      · split
        · rename_i t k heq
          rw [visibleToks_singleton]
          exact wikiLinkAt_visible heq
        · split
          · rename_i t k heq
            rw [visibleToks_singleton]
            exact extLinkAt_visible heq
          · split
            · rename_i t k heq
              rw [visibleToks_singleton]
              exact codeAt_visible heq
            · split
              · dsimp only
                rw [visibleToks_singleton, visibleTok]
              · dsimp only
                rw [visibleToks_singleton, visibleTok]
                simp only [plainRun]
                conv_lhs => rw [takeWhile_as_take
                  (fun c => c ≠ qc && c ≠ bqc && c ≠ '[' && c ≠ '_') s]

/-- On a placeholder-free text every tokenizer step draws its visible
content from the consumed prefix. -/
theorem stepV1_visible_sublist (mb : MathTab) (s : Str)
    (hph : searchPh s = none) :
    (visibleToks (stepV1 mb s).1).Sublist (s.take (stepV1 mb s).2) := by
  unfold stepV1
  split
  · rename_i k heq
    have := searchPhAux_none 0 hph 0
    rw [List.drop_zero] at this
    rw [this] at heq
    exact absurd heq (by simp)
  · split
    · rename_i i heq
      rw [hph] at heq
      exact absurd heq (by simp)
    · exact stepRestV1_visible_sublist s

/-- On a placeholder-free span the concatenated visible content of the
variant-1 token sequence is a sublist of the span, for any fuel. -/
theorem tokGo_visible_sublist (mb : MathTab) :
    ∀ (f : Nat) (s : Str), searchPh s = none →
      (visibleToks (tokGo mb f s)).Sublist s := by
  intro f
  induction f with
  | zero =>
    intro s _
    simp [tokGo, visibleToks]
  | succ f ih =>
    intro s h
    match s with
    | [] => simp [tokGo, visibleToks]
    | c :: rest =>
      have hdrop : searchPh ((c :: rest).drop (stepV1 mb (c :: rest)).2) = none := by
        show searchPhAux _ 0 = none
        refine searchPhAux_none_of 0 ?_
        intro k
        rw [List.drop_drop]
        exact searchPhAux_none 0 h _
      have hstep := stepV1_visible_sublist mb (c :: rest) h
      have hrec := ih ((c :: rest).drop (stepV1 mb (c :: rest)).2) hdrop
      have hsplit := (List.take_append_drop (stepV1 mb (c :: rest)).2 (c :: rest)).symm
      rw [show tokGo mb (f + 1) (c :: rest) = (stepV1 mb (c :: rest)).1 ++
        tokGo mb f ((c :: rest).drop (stepV1 mb (c :: rest)).2) from rfl]
      rw [visibleToks_append]
      conv_rhs => rw [hsplit]
      exact List.Sublist.append hstep hrec

/-- C9. The inline tokenizer never invents visible characters: for every
span free of math placeholders, the concatenation of the visible content of
the produced token sequence is a sublist of the original span. (The spec's
stronger reading, that no visible characters are lost either, fails: see
the counterexample, where a stray placeholder's text is deleted.) -/
theorem visible_text_preservation (mb : MathTab) (s : Str)
    (h : searchPh s = none) :
    (visibleToks (tokenizeInline mb s)).Sublist s :=
  tokGo_visible_sublist mb (s.length + 1) s h

/-- C9 witness: a concrete markup span with bold, a wikilink and code. -/
theorem visible_text_preservation_witness :
    searchPh "a ''b'' [[C|d]] e".toList = none ∧
      (visibleToks (tokenizeInline [] "a ''b'' [[C|d]] e".toList)).Sublist
        "a ''b'' [[C|d]] e".toList :=
  ⟨by decide, visible_text_preservation [] "a ''b'' [[C|d]] e".toList (by decide)⟩

/-- C9 counterexample: a span containing a placeholder-shaped substring with
no table entry loses the placeholder's visible characters entirely, so
concatenated token content is not the original visible text. -/
theorem stray_placeholder_text_lost :
    visibleToks (tokenizeInline [] strayPhIn) = "abc  def".toList ∧
      'M' ∈ strayPhIn ∧ 'M' ∉ "abc  def".toList := by
  refine ⟨by decide, by decide, by decide⟩

/-- A failed substring search means no suffix of the text starts with the
pattern. -/
theorem findSubAux_none_isPre {pat s : Str} : ∀ (i : Nat),
    findSubAux pat s i = none → ∀ k, isPre pat (s.drop k) = false := by
  induction s with
  | nil =>
    intro i h k
    rw [List.drop_nil]
    simp only [findSubAux] at h
    split at h
    · exact absurd h (by simp)
    · rename_i hp; exact Bool.not_eq_true _ ▸ (by simpa using hp)
  | cons c rest ih =>
    intro i h k
    simp only [findSubAux] at h
    split at h
    · exact absurd h (by simp)
    · rename_i hp
      match k with
      | 0 => simpa using hp
      | k + 1 => exact ih (i + 1) h k

/-- When the candidate text is at least as long as the pattern, appended
material cannot affect the prefix test. -/
theorem isPre_append_long : ∀ (pat u : Str), pat.length ≤ u.length →
    ∀ (v : Str), isPre pat (u ++ v) = isPre pat u := by
  intro pat
  induction pat with
  | nil => intro u _ v; rfl
  | cons p ps ih =>
    intro u hu v
    match u with
    | [] => simp at hu
    | c :: cs =>
      simp only [List.cons_append, isPre, List.append_eq]
      rw [ih cs (by simpa using hu) v]

/-- Every list is a prefix of itself followed by anything. -/
theorem isPre_append_self : ∀ (pat v : Str), isPre pat (pat ++ v) = true := by
  intro pat
  induction pat with
  | nil => intro v; rfl
  | cons p ps ih =>
    intro v
    simp only [List.cons_append, isPre, List.append_eq]
    rw [ih v]
    simp

/-- Positional search: when the pattern matches right at the seam of an
append, and at no earlier offset, the search reports the seam. -/
theorem findSubAux_position {pat y : Str} (hy : isPre pat y = true) :
    ∀ (x : Str) (i : Nat), (∀ k, k < x.length → isPre pat (x.drop k ++ y) = false) →
      findSubAux pat (x ++ y) i = some (i + x.length) := by
  intro x
  induction x with
  | nil =>
    intro i _
    match y with
    | [] =>
      simp only [List.nil_append, findSubAux, hy, if_true, List.length_nil, Nat.add_zero]
    | c :: cs =>
      simp only [List.nil_append, findSubAux, hy, if_true, List.length_nil, Nat.add_zero]
  | cons c cs ih =>
    intro i h
    have h0 : isPre pat (c :: (cs ++ y)) = false := by
      have := h 0 (by simp)
      simpa using this
    show (if isPre pat (c :: (cs ++ y)) = true then some i
          else findSubAux pat (cs ++ y) (i + 1)) = some (i + (c :: cs).length)
    rw [h0]
    simp only [Bool.false_eq_true, if_false]
    rw [ih (i + 1) (fun k hk => by have := h (k + 1) (by simpa using Nat.succ_lt_succ hk); simpa using this)]
    simp only [List.length_cons]
    congr 1
    omega

/-- An occurrence of the image opener cannot straddle the seam before a
chunk that itself starts with an angle bracket: the opener's tail holds no
bracket, so any straddling candidate fails within its first four
characters. -/
theorem img_no_span (A : Str) (hA : ∀ k, isPre ("<img".toList) (A.drop k) = false)
    (k : Nat) (hk : k < A.length) (t : Str) :
    isPre ("<img".toList) (A.drop k ++ '<' :: t) = false := by
  have hA0 := hA k
  have hlen : 1 ≤ (A.drop k).length := by rw [List.length_drop]; omega
  generalize A.drop k = u at hA0 hlen ⊢
  match u with
  | [] => simp at hlen
  | [c1] => simp [isPre]
  | [c1, c2] => simp [isPre]
  | [c1, c2, c3] => simp [isPre]
  | c1 :: c2 :: c3 :: c4 :: r =>
    rw [isPre_append_long ("<img".toList) (c1 :: c2 :: c3 :: c4 :: r) (by simp) ('<' :: t)]
    exact hA0

/-- A run free of closing brackets is scanned whole, stopping at the first
closing bracket. -/
theorem takeWhile_ne_gt (attrs : Str) (h : ∀ c ∈ attrs, c ≠ '>') (b : Str) :
    (attrs ++ '>' :: b).takeWhile (fun c => c ≠ '>') = attrs := by
  induction attrs with
  | nil => simp [List.takeWhile_cons]
  | cons c cs ih =>
    have hc : c ≠ '>' := h c (by simp)
    rw [List.cons_append, List.takeWhile_cons, if_pos (by simpa using hc)]
    rw [ih (fun d hd => h d (by simp [hd]))]

/-- The first image-tag match in a text whose head part has no image opener
is located exactly at the seam, covering opener, attribute run and closer. -/
theorem findImgMatch_append (a attrs b : Str)
    (ha : findSubCI ("<img".toList) a = none)
    (hattrs : ∀ c ∈ attrs, c ≠ '>') :
    findImgMatch (a ++ "<img".toList ++ attrs ++ ">".toList ++ b) =
      some (a.length, 4 + attrs.length + 1) := by
  have hlowpat : lowerS ("<img".toList) = "<img".toList := rfl
  have hA : ∀ k, isPre ("<img".toList) ((lowerS a).drop k) = false := by
    intro k
    have ha2 : findSubAux ("<img".toList) (lowerS a) 0 = none := by
      have := ha
      rw [findSubCI, hlowpat] at this
      exact this
    exact findSubAux_none_isPre 0 ha2 k
  have hlow : lowerS (a ++ "<img".toList ++ attrs ++ ">".toList ++ b) =
      lowerS a ++ ("<img".toList ++ (lowerS attrs ++ '>' :: lowerS b)) := by
    simp only [lowerS, List.map_append]
    rw [show (("<img".toList).map Char.toLower) = "<img".toList from rfl,
      show ((">".toList).map Char.toLower) = ['>'] from rfl]
    simp [List.append_assoc]
  have hfind : findSubCI ("<img".toList)
      (a ++ "<img".toList ++ attrs ++ ">".toList ++ b) = some a.length := by
    rw [findSubCI, hlowpat, hlow, findSub]
    rw [findSubAux_position (isPre_append_self _ _) (lowerS a) 0 ?_]
    · simp [lowerS]
    · intro k hk
      have hy : ("<img".toList) ++ (lowerS attrs ++ '>' :: lowerS b) =
          '<' :: ("img".toList ++ (lowerS attrs ++ '>' :: lowerS b)) := rfl
      rw [hy]
      exact img_no_span (lowerS a) hA k hk _
  have hafter : (a ++ "<img".toList ++ attrs ++ ">".toList ++ b).drop (a.length + 4) =
      attrs ++ '>' :: b := by
    have hre : a ++ "<img".toList ++ attrs ++ ">".toList ++ b =
        (a ++ "<img".toList) ++ (attrs ++ '>' :: b) := by
      simp [List.append_assoc]
    rw [hre, show a.length + 4 = (a ++ "<img".toList).length from by simp,
      List.drop_left]
  rw [findImgMatch, hfind]
  dsimp only
  rw [hafter, takeWhile_ne_gt attrs hattrs b, List.drop_left]
  rw [if_pos (by simp [isPre])]

/-- A reported image match has positive length and presupposes a nonempty
text. -/
theorem findImgMatch_bounds {s : Str} {p len : Nat}
    (h : findImgMatch s = some (p, len)) : 1 ≤ len ∧ 1 ≤ s.length := by
  match s with
  | [] =>
    rw [show findImgMatch [] = none from rfl] at h
    exact absurd h (by simp)
  | c :: cs =>
    refine ⟨?_, by simp⟩
    rw [findImgMatch] at h
    match hf : findSubCI ("<img".toList) (c :: cs) with
    | none => rw [hf] at h; exact absurd h (by simp)
    | some q =>
      rw [hf] at h
      dsimp only at h
      split at h
      · simp only [Option.some.injEq, Prod.mk.injEq] at h
        omega
      · exact absurd h (by simp)

/-- The fuelled image-deletion loop is insensitive to any sufficient fuel
budget. -/
theorem removeImgF_stable : ∀ (f : Nat) (s : Str), s.length < f →
    removeImgF f s = removeImg s := by
  intro f
  induction f using Nat.strong_induction_on with
  | _ f ih =>
    intro s hf
    match f, hf with
    | f + 1, hf =>
      rw [removeImg]
      rw [removeImgF, removeImgF]
      match hm : findImgMatch s with
      | none => rfl
      | some (p, len) =>
        have hb := findImgMatch_bounds hm
        have hd : (s.drop (p + len)).length < s.length := by
          rw [List.length_drop]; omega
        show s.take p ++ removeImgF f (s.drop (p + len)) =
          s.take p ++ removeImgF s.length (s.drop (p + len))
        congr 1
        rw [ih f (by omega) _ (by omega), ih s.length (by omega) _ (by omega)]

/-- C10, amended.  The pre-math image scrub is a single left-to-right pass
of the global tag regex: a well-formed image tag whose prefix context holds
no earlier (case-insensitive) image opener is deleted outright, the
remainder being scrubbed independently.  The spec's unconditional reading -
that no image tag can appear in the processed text - fails: deleting a
match can splice surrounding characters into a fresh image tag which the
single pass never revisits (see the counterexample). -/
theorem img_tag_removed (a attrs b : Str)
    (ha : findSubCI ("<img".toList) a = none)
    (hattrs : ∀ c ∈ attrs, c ≠ '>') :
    removeImg (a ++ "<img".toList ++ attrs ++ ">".toList ++ b) = a ++ removeImg b := by
  have hre : a ++ "<img".toList ++ attrs ++ ">".toList ++ b =
      (a ++ "<img".toList ++ attrs ++ ">".toList) ++ b := by
    simp [List.append_assoc]
  have hlen : (a ++ "<img".toList ++ attrs ++ ">".toList).length =
      a.length + (4 + attrs.length + 1) := by
    rw [List.length_append, List.length_append, List.length_append,
      show ("<img".toList).length = 4 from rfl, show ((">".toList)).length = 1 from rfl]
    omega
  have hdrop : (a ++ "<img".toList ++ attrs ++ ">".toList ++ b).drop
      (a.length + (4 + attrs.length + 1)) = b := by
    rw [hre, ← hlen, List.drop_left]
  have hre2 : a ++ "<img".toList ++ attrs ++ ">".toList ++ b =
      a ++ ("<img".toList ++ (attrs ++ (">".toList ++ b))) := by
    simp [List.append_assoc]
  have htake : (a ++ "<img".toList ++ attrs ++ ">".toList ++ b).take a.length = a := by
    rw [hre2]
    exact List.take_left a _
  have hblen : b.length < (a ++ "<img".toList ++ attrs ++ ">".toList ++ b).length := by
    rw [hre, List.length_append, hlen]
    omega
  rw [removeImg, removeImgF, findImgMatch_append a attrs b ha hattrs]
  show (a ++ "<img".toList ++ attrs ++ ">".toList ++ b).take a.length ++
      removeImgF (a ++ "<img".toList ++ attrs ++ ">".toList ++ b).length
        ((a ++ "<img".toList ++ attrs ++ ">".toList ++ b).drop
          (a.length + (4 + attrs.length + 1))) = a ++ removeImg b
  rw [htake, hdrop, removeImgF_stable _ b hblen]

/-- C10 witness: a concrete image tag between prose is scrubbed, leaving
the surrounding text. -/
theorem img_tag_removed_witness :
    findSubCI ("<img".toList) ("see ".toList) = none ∧
      (∀ c ∈ (" src=q".toList), c ≠ '>') ∧
      removeImg ("see ".toList ++ "<img".toList ++ " src=q".toList ++
        ">".toList ++ " here".toList) = "see ".toList ++ removeImg (" here".toList) :=
  ⟨by decide, by decide,
    img_tag_removed ("see ".toList) (" src=q".toList) (" here".toList)
      (by decide) (by decide)⟩

/-- C10 counterexample: deleting the embedded match of the splice input
creates a fresh image tag, which survives into the text handed to the math
stages; the implicit claim that image tags never appear there is false. -/
theorem img_tag_survives_extraction :
    (extractMathBlocks imgSpliceIn).1 = "<img y>".toList ∧
      (findImgMatch ("<img y>".toList)).isSome = true := by
  exact ⟨by decide, by decide⟩

